import Mathlib

/-!
Verification of the veles workflow-package loader against its design
specification.  The only source file shipped is
`src/libVeles/inc/veles/workflow_loader.h`, which declares
`WorkflowLoadingFailedException` (with its full message-building
constructor and `what()`), the `WorkflowLoader` class with its `Load`
member, the private `WorkflowArchive` record and the `kMainFile`
constant.  The bodies of `Load`, `ExtractArchive` and the value of
`kMainFile` live in a `.cc` file that is not part of the sources, so the
loading pipeline below is modelled from the specification, while the
exception type is embedded directly from the header.
-/

namespace Veles

/-! ## Exception type, embedded from the header -/

/-- Embeds `WorkflowLoadingFailedException` from
`src/libVeles/inc/veles/workflow_loader.h`: the constructor stores
`"Extraction of the workflow \"" + file + "\" has failed due to " +
reason + "."` into the private field `message_`. -/
structure WorkflowLoadingFailedException where
  message_ : String
deriving DecidableEq

/-- The constructor `WorkflowLoadingFailedException(file, reason)` from the
header: builds the message once, at construction time. -/
def mkWorkflowLoadingFailedException (file reason : String) :
    WorkflowLoadingFailedException :=
  ⟨"Extraction of the workflow \"" ++ file ++ "\" has failed due to " ++
    reason ++ "."⟩

/-- `what()` from the header: returns the stored message (it reads
`message_` and nothing else, so repeated calls yield the same content). -/
def WorkflowLoadingFailedException.what
    (e : WorkflowLoadingFailedException) : String :=
  e.message_

/-! ## Data model, modelled from the spec (§3) -/

/-- Modelled from the spec: the enumerated primitive element types of a
`BlobRef` (`i8,i16,i32,i64,u8,u16,u32,u64,f16,f32,f64`). -/
inductive ElementType
  | i8 | i16 | i32 | i64
  | u8 | u16 | u32 | u64
  | f16 | f32 | f64
deriving DecidableEq

/-- Modelled from the spec: `sizeof(element_type)` in bytes. -/
def ElementType.byteSize : ElementType → Nat
  | .i8 => 1 | .i16 => 2 | .i32 => 4 | .i64 => 8
  | .u8 => 1 | .u16 => 2 | .u32 => 4 | .u64 => 8
  | .f16 => 2 | .f32 => 4 | .f64 => 8

/-- Modelled from the spec: a `BlobRef` names a sibling file in the
scratch area together with its declared element type and shape. -/
structure BlobRef where
  path : String
  element_type : ElementType
  shape : List Nat
deriving DecidableEq

/-- Modelled from the spec: the scalar leaves of a `PropertyValue`
(boolean, signed integer, floating-point, string).  Floating-point
values are modelled by their bit pattern, so "bit-for-bit" comparisons
are exact. -/
inductive ScalarValue
  | bool (b : Bool)
  | int (i : Int)
  | float (bits : Nat)
  | str (s : String)
deriving DecidableEq

/-- Modelled from the spec: `PropertyValue` is a tagged variant of a
scalar, a homogeneous ordered sequence of scalars, or a `BlobRef`. -/
inductive PropertyValue
  | scalar (v : ScalarValue)
  | seq (items : List ScalarValue)
  | blob (r : BlobRef)
deriving DecidableEq

/-- Modelled from the spec: a `UnitSpec` carries an identifier, a type
name keying the external registry, named properties, and the ordered
list of predecessor ids (`links`, defining input slot indices). -/
structure UnitSpec where
  id : String
  type_name : String
  properties : List (String × PropertyValue)
  links : List String
deriving DecidableEq

/-- Modelled from the spec: the `DescriptorTree` root record, an ordered
sequence of `UnitSpec`s (declaration order). -/
structure DescriptorTree where
  units : List UnitSpec
deriving DecidableEq

/-! ## Error taxonomy, modelled from the spec (§7) -/

/-- Modelled from the spec: the error kinds of the §7 taxonomy. -/
inductive ErrorKind
  | extractionFailed
  | invalidPackage
  | invalidDescriptor
  | invalidBlob
  | unknownUnitType
  | unitRejectedProperty
  | linkArityMismatch
  | invalidWorkflow
deriving DecidableEq

/-- Modelled from the spec: the single failure type surfaced by a failed
`Load`, parameterized by kind and a human-readable reason, carrying the
archive path. -/
structure Diagnostic where
  file : String
  kind : ErrorKind
  reason : String
deriving DecidableEq

/-! ## Archive, scratch area and disk, modelled from the spec (§4.1, §6) -/

/-- Modelled from the spec: the kinds an archive entry may have; only
regular files and directories are honored by extraction. -/
inductive EntryKind
  | file | dir | symlink | device | hardlink
deriving DecidableEq

/-- Modelled from the spec: the contents of a file in the scratch area.
The concrete textual syntax of the descriptor is left open by the spec
(§9), so descriptor bytes are abstracted as the tree they denote, and
blob files as their raw byte sequence. -/
inductive FileData
  | descriptor (tree : DescriptorTree)
  | blob (bytes : List Nat)
deriving DecidableEq

/-- Modelled from the spec: one archive entry as yielded by the injected
archive-reader capability: `(entry_name, entry_kind, entry_bytes)`. -/
structure Entry where
  name : String
  kind : EntryKind
  data : FileData
deriving DecidableEq

/-- Modelled from the spec: the package delivered to `Load`: its
filesystem path plus the entries the archive-reader yields for it. -/
structure Archive where
  path : String
  entries : List Entry
deriving DecidableEq

/-- The scratch area: extracted file names mapped to contents.  A name
written later shadows an earlier one (it is kept at the head). -/
abbrev Scratch := List (String × FileData)

/-- Modelled from the spec: the observable disk state around a load: the
files outside the scratch root, and the scratch area itself when one
exists (`none` when it has been released). -/
structure Disk where
  external : List (String × List Nat)
  scratch : Option Scratch

/-! ## Entry-name safety, modelled from the spec (§4.2) -/

/-- Split a character list into `/`-separated segments. -/
def segsAux : List Char → List Char → List (List Char)
  | [], cur => [cur.reverse]
  | c :: rest, cur =>
    if c = '/' then cur.reverse :: segsAux rest []
    else segsAux rest (c :: cur)

/-- The `/`-separated segments of a path name. -/
def pathSegs (name : String) : List (List Char) := segsAux name.data []

/-- Is the path absolute (does it start with `/`)? -/
def startsWithSlash (name : String) : Bool :=
  match name.data with
  | [] => false
  | c :: _ => c = '/'

/-- Does the name contain a directory separator? -/
def hasSlash (name : String) : Bool :=
  name.data.any (fun c => c = '/')

/-- The `..` path segment. -/
def dotdot : List Char := ['.', '.']

/-- Lexical resolution depth of a segment list: `..` pops one level and
fails below the root, `.` and empty segments are neutral, any other
segment descends. -/
def lexDepth : Nat → List (List Char) → Option Nat
  | d, [] => some d
  | d, seg :: rest =>
    if seg = dotdot then
      match d with
      | 0 => none
      | d' + 1 => lexDepth d' rest
    else if seg = ['.'] then lexDepth d rest
    else if seg = [] then lexDepth d rest
    else lexDepth (d + 1) rest

/-- Modelled from the spec: an entry name is safe when it is not
absolute, carries no `..` segment, and its lexical resolution stays
inside the scratch root. -/
def isSafeName (name : String) : Bool :=
  !startsWithSlash name &&
  (pathSegs name).all (fun seg => seg != dotdot) &&
  (lexDepth 0 (pathSegs name)).isSome

/-! ## Archive extractor, modelled from the spec (§4.2) -/

/-- Modelled from the spec: write one entry into the scratch area.
Unsafe names are rejected; only regular files and directories are
honored; symbolic links, devices and hard links are rejected.  All
rejections surface as `ExtractionFailed` per the §7 taxonomy. -/
def writeEntry (scratch : Scratch) (e : Entry) :
    Except (ErrorKind × String) Scratch :=
  if isSafeName e.name then
    match e.kind with
    | .file => .ok ((e.name, e.data) :: scratch)
    | .dir => .ok scratch
    | _ => .error (.extractionFailed, "unsupported entry kind for " ++ e.name)
  else
    .error (.extractionFailed, "traversal-unsafe entry name: " ++ e.name)

/-- Modelled from the spec: extract all entries in order into the
scratch area, aborting on the first failure (fail fast). -/
def extractEntries : List Entry → Scratch → Except (ErrorKind × String) Scratch
  | [], s => .ok s
  | e :: rest, s =>
    match writeEntry s e with
    | .error d => .error d
    | .ok s' => extractEntries rest s'

/-- Look up a file by name in the scratch area (first match wins, i.e.
the most recently written file). -/
def lookupFile : Scratch → String → Option FileData
  | [], _ => none
  | (n, d) :: rest, name => if n = name then some d else lookupFile rest name

/-! ## Descriptor parser, modelled from the spec (§4.3) -/

/-- Modelled from the spec: `kMainFile`, the fixed well-known descriptor
name.  The header only declares `static const char* kMainFile;`; its
value lives in the missing `.cc`, so the spec's example name is used. -/
def kMainFile : String := "workflow.yaml"

/-- Does the unit list contain two entries with the same `id`? -/
def hasDupIds : List UnitSpec → Bool
  | [] => false
  | u :: rest => rest.any (fun v => v.id == u.id) || hasDupIds rest

/-- Modelled from the spec: read exactly the file at
`<scratch>/<kMainFile>`; absence yields `InvalidPackage(missing
descriptor)`; schema violations (content that is not a descriptor tree,
duplicate unit ids) yield `InvalidDescriptor`. -/
def parseDescriptor (scratch : Scratch) :
    Except (ErrorKind × String) DescriptorTree :=
  match lookupFile scratch kMainFile with
  | none => .error (.invalidPackage, "missing descriptor")
  | some (.blob _) =>
    .error (.invalidDescriptor, "descriptor file does not parse as a descriptor tree")
  | some (.descriptor t) =>
    if hasDupIds t.units then .error (.invalidDescriptor, "duplicate unit id")
    else .ok t

/-! ## Blob resolver, modelled from the spec (§4.4) -/

/-- An owned, materialized array: the canonical path it came from, its
declared element type and shape, and its raw bytes. -/
structure ArrayVal where
  path : String
  dtype : ElementType
  shape : List Nat
  bytes : List Nat
deriving DecidableEq

/-- Modelled from the spec: the byte length a blob file must have:
`product(shape) × sizeof(element_type)`. -/
def shapeSize (shape : List Nat) : Nat := shape.foldr (· * ·) 1

/-- Expected byte count of the file a `BlobRef` points at. -/
def expectedBytes (r : BlobRef) : Nat := shapeSize r.shape * r.element_type.byteSize

/-- Index of the pooled array for a path, if one was already
materialized. -/
def indexOfPath : List ArrayVal → String → Option Nat
  | [], _ => none
  | a :: rest, p =>
    if a.path = p then some 0 else (indexOfPath rest p).map (· + 1)

/-- The blob references appearing in a property list, in order. -/
def propRefs : List (String × PropertyValue) → List BlobRef
  | [] => []
  | (_, .blob r) :: rest => r :: propRefs rest
  | _ :: rest => propRefs rest

/-- All blob references of a descriptor tree, unit by unit, in order. -/
def treeRefs (t : DescriptorTree) : List BlobRef :=
  (t.units.map (fun u => propRefs u.properties)).flatten

/-- Modelled from the spec: resolve each blob reference against the
scratch area, deduplicating by canonicalized path (paths contain no
directory separators, so canonicalization is identity): each distinct
path is opened once, its size verified against
`product(shape) × sizeof(element_type)`, and materialized into the pool;
later references to the same path reuse the pooled array.  Missing or
non-blob files, size mismatches and zero shape dimensions yield
`InvalidBlob`. -/
def resolveRefs (scratch : Scratch) :
    List BlobRef → List ArrayVal → Except (ErrorKind × String) (List ArrayVal)
  | [], pool => .ok pool
  | r :: rest, pool =>
    if hasSlash r.path then
      .error (.invalidBlob, "blob path is not a sibling file name: " ++ r.path)
    else if r.shape.all (fun d => decide (0 < d)) then
      match lookupFile scratch r.path with
      | some (.blob bs) =>
        if bs.length = expectedBytes r then
          match indexOfPath pool r.path with
          | some _ => resolveRefs scratch rest pool
          | none =>
            resolveRefs scratch rest
              (pool ++ [⟨r.path, r.element_type, r.shape, bs⟩])
        else .error (.invalidBlob, "size mismatch for blob " ++ r.path)
      | _ => .error (.invalidBlob, "blob file missing or unreadable: " ++ r.path)
    else .error (.invalidBlob, "zero dimension in shape of " ++ r.path)

/-- Resolve every blob reference of the tree, yielding the array pool. -/
def resolveAll (scratch : Scratch) (t : DescriptorTree) :
    Except (ErrorKind × String) (List ArrayVal) :=
  resolveRefs scratch (treeRefs t) []

/-! ## Graph linker, modelled from the spec (§4.5) -/

/-- Boolean membership in a list of strings. -/
def memb (x : String) : List String → Bool
  | [] => false
  | y :: rest => x == y || memb x rest

/-- A unit is ready when every declared predecessor has already been
constructed. -/
def readyUnit (placed : List String) (u : UnitSpec) : Bool :=
  u.links.all (fun l => memb l placed)

/-- Remove the first ready unit from the list, keeping the rest in
order. -/
def extractReady (placed : List String) :
    List UnitSpec → Option (UnitSpec × List UnitSpec)
  | [] => none
  | u :: rest =>
    if readyUnit placed u then some (u, rest)
    else (extractReady placed rest).map (fun p => (p.1, u :: p.2))

/-- Kahn's algorithm with fuel: repeatedly place a unit all of whose
predecessors are placed; when none is ready the relation has a cycle (or
a dangling link) and the sort fails. -/
def kahnLoop : Nat → List String → List UnitSpec → Option (List UnitSpec)
  | _, _, [] => some []
  | 0, _, _ :: _ => none
  | fuel + 1, placed, u :: rest =>
    match extractReady placed (u :: rest) with
    | none => none
    | some (v, vs) => (kahnLoop fuel (v.id :: placed) vs).map (fun order => v :: order)

/-- Modelled from the spec: topologically order units by `links`. -/
def topoSort (units : List UnitSpec) : Option (List UnitSpec) :=
  kahnLoop units.length [] units

/-- Modelled from the spec: a constructor obtained from the injected
unit registry: which property names it accepts, and its input arity. -/
structure UnitCtor where
  accepts : String → Bool
  inputArity : Nat

/-- Modelled from the spec: the injected registry, a mapping from type
name to constructor. -/
def Registry := String → Option UnitCtor

/-- A property value after linking: blob references are replaced by the
index of the shared pooled array. -/
inductive ResolvedValue
  | scalar (v : ScalarValue)
  | seq (items : List ScalarValue)
  | array (idx : Nat)
deriving DecidableEq

/-- A constructed unit inside the returned workflow. -/
structure WorkflowUnit where
  id : String
  type_name : String
  properties : List (String × ResolvedValue)
  links : List String
deriving DecidableEq

/-- Modelled from the spec: the returned `Workflow`: the constructed
units in construction order, plus the owned array pool shared between
the units' array-valued properties. -/
structure Workflow where
  units : List WorkflowUnit
  arrays : List ArrayVal
deriving DecidableEq

/-- Replace a blob reference by its pooled array index; scalars pass
through unchanged. -/
def linkValue (pool : List ArrayVal) :
    PropertyValue → Except (ErrorKind × String) ResolvedValue
  | .scalar v => .ok (.scalar v)
  | .seq vs => .ok (.seq vs)
  | .blob r =>
    match indexOfPath pool r.path with
    | some i => .ok (.array i)
    | none => .error (.invalidBlob, "unresolved blob reference: " ++ r.path)

/-- Link every property of a unit, in order. -/
def linkProps (pool : List ArrayVal) :
    List (String × PropertyValue) →
    Except (ErrorKind × String) (List (String × ResolvedValue))
  | [] => .ok []
  | (n, v) :: rest =>
    match linkValue pool v with
    | .error d => .error d
    | .ok rv =>
      match linkProps pool rest with
      | .error d => .error d
      | .ok rvs => .ok ((n, rv) :: rvs)

/-- Modelled from the spec: construct one unit: look up the constructor
by type name (`UnknownUnitType` on a registry miss), apply properties
(`UnitRejectedProperty` when the unit refuses one), check link arity
(`LinkArityMismatch`), and attach resolved arrays. -/
def constructUnit (reg : Registry) (pool : List ArrayVal) (u : UnitSpec) :
    Except (ErrorKind × String) WorkflowUnit :=
  match reg u.type_name with
  | none => .error (.unknownUnitType, "unknown unit type: " ++ u.type_name)
  | some c =>
    if u.properties.all (fun p => c.accepts p.1) then
      if u.links.length = c.inputArity then
        match linkProps pool u.properties with
        | .error d => .error d
        | .ok props => .ok ⟨u.id, u.type_name, props, u.links⟩
      else .error (.linkArityMismatch, "link arity mismatch for unit " ++ u.id)
    else .error (.unitRejectedProperty, "unit rejected a property of " ++ u.id)

/-- Construct all units of an already topologically sorted order. -/
def constructUnits (reg : Registry) (pool : List ArrayVal) :
    List UnitSpec → Except (ErrorKind × String) (List WorkflowUnit)
  | [] => .ok []
  | u :: rest =>
    match constructUnit reg pool u with
    | .error d => .error d
    | .ok cu =>
      match constructUnits reg pool rest with
      | .error d => .error d
      | .ok cus => .ok (cu :: cus)

/-- Modelled from the spec: the graph linker: topological sort (a cycle
or dangling link yields `InvalidWorkflow`), then construction in
topological order, then ownership transfer into the `Workflow`. -/
def linkAll (reg : Registry) (pool : List ArrayVal) (t : DescriptorTree) :
    Except (ErrorKind × String) Workflow :=
  match topoSort t.units with
  | none => .error (.invalidWorkflow, "cycle or dangling link in links relation")
  | some order =>
    match constructUnits reg pool order with
    | .error d => .error d
    | .ok cus => .ok ⟨cus, pool⟩

/-- The predecessor relation induced by `links`: `LinkRel units a b`
holds when some unit with id `b` lists `a` among its predecessors. -/
def LinkRel (units : List UnitSpec) (a b : String) : Prop :=
  ∃ u, u ∈ units ∧ u.id = b ∧ a ∈ u.links

/-- The links relation contains a cycle: some id reaches itself through
one or more link steps. -/
def HasCycle (units : List UnitSpec) : Prop :=
  ∃ a, Relation.TransGen (LinkRel units) a a

/-- Every `links` entry references an existing unit id. -/
def NoDangling (units : List UnitSpec) : Prop :=
  ∀ u ∈ units, ∀ l ∈ u.links, ∃ v, v ∈ units ∧ v.id = l

/-- A unit list is topologically consistent relative to the already
placed ids: each unit's predecessors all lie among `placed` or among the
ids of the units before it. -/
def TopoOk : List String → List UnitSpec → Prop
  | _, [] => True
  | placed, u :: rest => (∀ l ∈ u.links, l ∈ placed) ∧ TopoOk (u.id :: placed) rest

/-! ## The Load pipeline, modelled from the spec (§4, §6, §7) -/

/-- The pure pipeline of a single load: extract, parse, resolve, link,
with fail-fast propagation. -/
def runLoad (arch : Archive) (reg : Registry) :
    Except (ErrorKind × String) Workflow :=
  match extractEntries arch.entries [] with
  | .error d => .error d
  | .ok scratch =>
    match parseDescriptor scratch with
    | .error d => .error d
    | .ok tree =>
      match resolveAll scratch tree with
      | .error d => .error d
      | .ok pool => linkAll reg pool tree

/-- Modelled from the spec: `WorkflowLoader::Load`.  A scratch area is
acquired at load-start, the pipeline runs to completion or first error,
and the scoped release removes the scratch area on every exit path; the
caller's files outside the scratch root are never touched.  Failure
surfaces exactly one `Diagnostic` naming the archive path and the
reason. -/
def Load (arch : Archive) (reg : Registry) (disk : Disk) :
    Except Diagnostic Workflow × Disk :=
  let result := runLoad arch reg
  (match result with
   | .ok w => .ok w
   | .error d => .error ⟨arch.path, d.1, d.2⟩,
   { external := disk.external, scratch := none })

/-! ## Package synthesis, modelled from the spec (§8, round-trip) -/

/-- Look up a blob by name in a synthesized blob set. -/
def blobLookup : List (String × List Nat) → String → Option (List Nat)
  | [], _ => none
  | (n, bs) :: rest, name => if n = name then some bs else blobLookup rest name

/-- The archive entry for one synthesized blob file. -/
def blobEntry (b : String × List Nat) : Entry :=
  ⟨b.1, .file, .blob b.2⟩

/-- Modelled from the spec: a package synthesized from a known
`DescriptorTree` and blob set: the descriptor at `kMainFile` plus one
regular-file entry per blob. -/
def synthesize (p : String) (tree : DescriptorTree)
    (blobs : List (String × List Nat)) : Archive :=
  ⟨p, ⟨kMainFile, .file, .descriptor tree⟩ :: blobs.map blobEntry⟩

/-- The scratch area extraction produces for a synthesized package: the
blob files (written after the descriptor, hence nearer the head) and the
descriptor at `kMainFile`. -/
def synthScratch (tree : DescriptorTree)
    (blobs : List (String × List Nat)) : Scratch :=
  (blobs.map (fun b => (b.1, FileData.blob b.2))).reverse ++
    [(kMainFile, FileData.descriptor tree)]

/-- A concrete two-unit workflow (a blob-bearing source and a sink
linked to it) used to exercise the loader. -/
def exampleTree : DescriptorTree :=
  ⟨[⟨"a", "src", [("data", .blob ⟨"w.bin", .f32, [2, 2]⟩),
      ("msg", .scalar (.str "hi"))], []⟩,
    ⟨"b", "sink", [], ["a"]⟩]⟩

/-- The blob set for `exampleTree`: 16 bytes for the 2×2 `f32` array. -/
def exampleBlobs : List (String × List Nat) := [("w.bin", List.replicate 16 0)]

/-- A registry accepting every property, with arity 1 for `sink` and 0
otherwise. -/
def exampleReg : Registry :=
  fun t => if t = "sink" then some ⟨fun _ => true, 1⟩ else some ⟨fun _ => true, 0⟩

/-! # Lemmas -/

theorem memb_iff (x : String) (l : List String) : memb x l = true ↔ x ∈ l := by
  induction l with
  | nil => simp [memb]
  | cons y rest ih => simp [memb, ih]

theorem append_ne_empty (a b : String) (h : a ≠ "") : a ++ b ≠ "" := by
  intro hc
  apply h
  have hd := congrArg String.data hc
  rw [String.data_append] at hd
  have hnil : a.data = [] := (List.append_eq_nil.mp hd).1
  exact String.ext (by rw [hnil])

theorem writeEntry_error (s : Scratch) (e : Entry) (k : ErrorKind) (m : String)
    (h : writeEntry s e = .error (k, m)) :
    k = .extractionFailed ∧ m ≠ "" := by
  unfold writeEntry at h
  by_cases hs : isSafeName e.name = true
  · rw [if_pos hs] at h
    cases hk : e.kind <;> rw [hk] at h
    · simp at h
    · simp at h
    all_goals
      simp only [Except.error.injEq, Prod.mk.injEq] at h
      exact ⟨h.1.symm, by rw [← h.2]; exact append_ne_empty _ _ (by decide)⟩
  · rw [if_neg hs] at h
    simp only [Except.error.injEq, Prod.mk.injEq] at h
    refine ⟨h.1.symm, ?_⟩
    rw [← h.2]
    exact append_ne_empty _ _ (by decide)

theorem extractEntries_error (l : List Entry) :
    ∀ s k m, extractEntries l s = .error (k, m) →
    k = .extractionFailed ∧ m ≠ "" := by
  induction l with
  | nil => intro s k m h; simp [extractEntries] at h
  | cons e rest ih =>
    intro s k m h
    unfold extractEntries at h
    cases hw : writeEntry s e with
    | error d =>
      rw [hw] at h
      simp only [Except.error.injEq] at h
      exact writeEntry_error s e k m (by rw [hw, h])
    | ok s' =>
      rw [hw] at h
      exact ih s' k m h

theorem parseDescriptor_error (s : Scratch) (k : ErrorKind) (m : String)
    (h : parseDescriptor s = .error (k, m)) :
    (k = .invalidPackage ∨ k = .invalidDescriptor) ∧ m ≠ "" := by
  unfold parseDescriptor at h
  split at h
  · simp only [Except.error.injEq, Prod.mk.injEq] at h
    exact ⟨Or.inl h.1.symm, by rw [← h.2]; decide⟩
  · simp only [Except.error.injEq, Prod.mk.injEq] at h
    exact ⟨Or.inr h.1.symm, by rw [← h.2]; decide⟩
  · split at h
    · simp only [Except.error.injEq, Prod.mk.injEq] at h
      exact ⟨Or.inr h.1.symm, by rw [← h.2]; decide⟩
    · simp at h

theorem resolveRefs_error (scratch : Scratch) (refs : List BlobRef) :
    ∀ pool k m, resolveRefs scratch refs pool = .error (k, m) →
    k = .invalidBlob ∧ m ≠ "" := by
  induction refs with
  | nil => intro pool k m h; simp [resolveRefs] at h
  | cons r rest ih =>
    intro pool k m h
    unfold resolveRefs at h
    split at h
    · simp only [Except.error.injEq, Prod.mk.injEq] at h
      exact ⟨h.1.symm, by rw [← h.2]; exact append_ne_empty _ _ (by decide)⟩
    · split at h
      · split at h
        · split at h
          · split at h
            · exact ih _ k m h
            · exact ih _ k m h
          · simp only [Except.error.injEq, Prod.mk.injEq] at h
            exact ⟨h.1.symm, by rw [← h.2]; exact append_ne_empty _ _ (by decide)⟩
        · simp only [Except.error.injEq, Prod.mk.injEq] at h
          exact ⟨h.1.symm, by rw [← h.2]; exact append_ne_empty _ _ (by decide)⟩
      · simp only [Except.error.injEq, Prod.mk.injEq] at h
        exact ⟨h.1.symm, by rw [← h.2]; exact append_ne_empty _ _ (by decide)⟩

theorem linkValue_error (pool : List ArrayVal) (v : PropertyValue)
    (k : ErrorKind) (m : String) (h : linkValue pool v = .error (k, m)) :
    m ≠ "" := by
  unfold linkValue at h
  split at h
  · simp at h
  · simp at h
  · split at h
    · simp at h
    · simp only [Except.error.injEq, Prod.mk.injEq] at h
      rw [← h.2]
      exact append_ne_empty _ _ (by decide)

theorem linkProps_error (pool : List ArrayVal) :
    ∀ props k m, linkProps pool props = .error (k, m) → m ≠ "" := by
  intro props
  induction props with
  | nil => intro k m h; simp [linkProps] at h
  | cons p rest ih =>
    intro k m h
    unfold linkProps at h
    cases hv : linkValue pool p.2 with
    | error d =>
      rw [hv] at h
      simp only [Except.error.injEq] at h
      exact linkValue_error pool p.2 k m (by rw [hv, h])
    | ok rv =>
      rw [hv] at h
      cases hr : linkProps pool rest with
      | error d =>
        rw [hr] at h
        simp only [Except.error.injEq] at h
        exact ih k m (by rw [hr, h])
      | ok rvs => rw [hr] at h; simp at h

theorem constructUnit_error (reg : Registry) (pool : List ArrayVal)
    (u : UnitSpec) (k : ErrorKind) (m : String)
    (h : constructUnit reg pool u = .error (k, m)) : m ≠ "" := by
  unfold constructUnit at h
  split at h
  · simp only [Except.error.injEq, Prod.mk.injEq] at h
    rw [← h.2]
    exact append_ne_empty _ _ (by decide)
  · split at h
    · split at h
      · split at h
        · rename_i hp
          simp only [Except.error.injEq] at h
          exact linkProps_error pool u.properties k m (by rw [hp, h])
        · simp at h
      · simp only [Except.error.injEq, Prod.mk.injEq] at h
        rw [← h.2]
        exact append_ne_empty _ _ (by decide)
    · simp only [Except.error.injEq, Prod.mk.injEq] at h
      rw [← h.2]
      exact append_ne_empty _ _ (by decide)

theorem constructUnits_error (reg : Registry) (pool : List ArrayVal) :
    ∀ l k m, constructUnits reg pool l = .error (k, m) → m ≠ "" := by
  intro l
  induction l with
  | nil => intro k m h; simp [constructUnits] at h
  | cons u rest ih =>
    intro k m h
    unfold constructUnits at h
    cases hc : constructUnit reg pool u with
    | error d =>
      rw [hc] at h
      simp only [Except.error.injEq] at h
      exact constructUnit_error reg pool u k m (by rw [hc, h])
    | ok cu =>
      rw [hc] at h
      cases hr : constructUnits reg pool rest with
      | error d =>
        rw [hr] at h
        simp only [Except.error.injEq] at h
        exact ih k m (by rw [hr, h])
      | ok cus => rw [hr] at h; simp at h

theorem linkAll_error (reg : Registry) (pool : List ArrayVal)
    (t : DescriptorTree) (k : ErrorKind) (m : String)
    (h : linkAll reg pool t = .error (k, m)) : m ≠ "" := by
  unfold linkAll at h
  split at h
  · simp only [Except.error.injEq, Prod.mk.injEq] at h
    rw [← h.2]
    decide
  · split at h
    · rename_i a order ho b d hc
      simp only [Except.error.injEq] at h
      exact constructUnits_error reg pool order k m (by rw [← h]; exact hc)
    · simp at h

theorem runLoad_error (arch : Archive) (reg : Registry) (k : ErrorKind)
    (m : String) (h : runLoad arch reg = .error (k, m)) : m ≠ "" := by
  unfold runLoad at h
  split at h
  · rename_i a d he
    simp only [Except.error.injEq] at h
    exact (extractEntries_error arch.entries [] k m (by rw [← h]; exact he)).2
  · split at h
    · rename_i a scratch he b d hp
      simp only [Except.error.injEq] at h
      exact (parseDescriptor_error scratch k m (by rw [← h]; exact hp)).2
    · split at h
      · rename_i a scratch he b tree hp c d hb
        simp only [Except.error.injEq] at h
        exact (resolveRefs_error scratch (treeRefs tree) [] k m
          (by rw [← h]; exact hb)).2
      · rename_i a scratch he b tree hp c pool hb
        exact linkAll_error reg pool tree k m h

theorem isSafeName_eq_false_of (name : String)
    (hu : startsWithSlash name = true ∨ dotdot ∈ pathSegs name ∨
      lexDepth 0 (pathSegs name) = none) :
    isSafeName name = false := by
  rcases hu with h1 | h2 | h3
  · simp [isSafeName, h1]
  · have hall : (pathSegs name).all (fun seg => seg != dotdot) = false := by
      rw [List.all_eq_false]
      exact ⟨dotdot, h2, by simp⟩
    simp [isSafeName, hall]
  · simp [isSafeName, h3]

theorem extractEntries_fails (l : List Entry) (e : Entry) (he : e ∈ l)
    (hu : isSafeName e.name = false) :
    ∀ s, ∃ d, extractEntries l s = .error d := by
  induction l with
  | nil => cases he
  | cons a rest ih =>
    intro s
    rcases List.mem_cons.mp he with rfl | hmem
    · have hw : writeEntry s e =
          .error (.extractionFailed, "traversal-unsafe entry name: " ++ e.name) := by
        unfold writeEntry
        rw [if_neg (by simp [hu])]
      refine ⟨(.extractionFailed, "traversal-unsafe entry name: " ++ e.name), ?_⟩
      simp [extractEntries, hw]
    · cases hw : writeEntry s a with
      | error d => exact ⟨d, by simp [extractEntries, hw]⟩
      | ok s' =>
        obtain ⟨d, hd⟩ := ih hmem s'
        exact ⟨d, by simp [extractEntries, hw, hd]⟩

theorem nodup_of_hasDupIds_eq_false :
    ∀ l : List UnitSpec, hasDupIds l = false →
    (l.map (fun u => u.id)).Nodup := by
  intro l
  induction l with
  | nil => simp
  | cons u rest ih =>
    intro h
    unfold hasDupIds at h
    rw [Bool.or_eq_false_iff] at h
    obtain ⟨h1, h2⟩ := h
    simp only [List.map_cons, List.nodup_cons]
    refine ⟨?_, ih h2⟩
    intro hmem
    simp only [List.mem_map] at hmem
    obtain ⟨v, hv, hvid⟩ := hmem
    have hany : rest.any (fun v => v.id == u.id) = true := by
      rw [List.any_eq_true]
      exact ⟨v, hv, by simp [hvid]⟩
    rw [hany] at h1
    cases h1

theorem load_error_shape (arch : Archive) (reg : Registry) (disk : Disk)
    (d : Diagnostic) (h : (Load arch reg disk).1 = .error d) :
    ∃ k m, runLoad arch reg = .error (k, m) ∧ d = ⟨arch.path, k, m⟩ := by
  cases hr : runLoad arch reg with
  | ok w => simp [Load, hr] at h
  | error e =>
    cases e with
    | mk k m =>
      refine ⟨k, m, rfl, ?_⟩
      simp only [Load, hr] at h
      exact (Except.error.inj h).symm

theorem resolveRefs_ok_sound (scratch : Scratch) :
    ∀ (refs : List BlobRef) (pool pool' : List ArrayVal),
    resolveRefs scratch refs pool = .ok pool' →
    ∀ r ∈ refs, hasSlash r.path = false ∧
      r.shape.all (fun d => decide (0 < d)) = true ∧
      ∃ bs, lookupFile scratch r.path = some (.blob bs) ∧
        bs.length = expectedBytes r := by
  intro refs
  induction refs with
  | nil => intro pool pool' h r hr; cases hr
  | cons r0 rest ih =>
    intro pool pool' h r hr
    unfold resolveRefs at h
    split at h
    · cases h
    · rename_i hslash
      split at h
      · split at h
        · rename_i hshape bs hlk
          split at h
          · rename_i hlen
            split at h
            · rcases List.mem_cons.mp hr with rfl | hmem
              · exact ⟨by simpa using hslash, by assumption, bs, hlk, hlen⟩
              · exact ih _ _ h r hmem
            · rcases List.mem_cons.mp hr with rfl | hmem
              · exact ⟨by simpa using hslash, by assumption, bs, hlk, hlen⟩
              · exact ih _ _ h r hmem
          · cases h
        · cases h
      · cases h

theorem resolveRefs_ok_mem (scratch : Scratch) :
    ∀ (refs : List BlobRef) (pool pool' : List ArrayVal),
    resolveRefs scratch refs pool = .ok pool' →
    ∀ a ∈ pool', a ∈ pool ∨
      ∃ r bs, r ∈ refs ∧ lookupFile scratch r.path = some (.blob bs) ∧
        bs.length = expectedBytes r ∧
        a = ⟨r.path, r.element_type, r.shape, bs⟩ := by
  intro refs
  induction refs with
  | nil =>
    intro pool pool' h a ha
    unfold resolveRefs at h
    cases h
    exact Or.inl ha
  | cons r0 rest ih =>
    intro pool pool' h a ha
    unfold resolveRefs at h
    split at h
    · cases h
    · split at h
      · split at h
        · rename_i hshape bs hlk
          split at h
          · rename_i hlen
            split at h
            · rcases ih _ _ h a ha with hin | ⟨r, bs', hr, hlk', hlen', ha'⟩
              · exact Or.inl hin
              · exact Or.inr ⟨r, bs', List.mem_cons_of_mem r0 hr, hlk', hlen', ha'⟩
            · rcases ih _ _ h a ha with hin | ⟨r, bs', hr, hlk', hlen', ha'⟩
              · rcases List.mem_append.mp hin with hp | hnew
                · exact Or.inl hp
                · exact Or.inr ⟨r0, bs, List.mem_cons_self r0 rest, hlk, hlen,
                    by simpa using hnew⟩
              · exact Or.inr ⟨r, bs', List.mem_cons_of_mem r0 hr, hlk', hlen', ha'⟩
          · cases h
        · cases h
      · cases h

theorem load_ok_shape (arch : Archive) (reg : Registry) (disk : Disk)
    (w : Workflow) (h : (Load arch reg disk).1 = .ok w) :
    ∃ scratch tree pool order,
      extractEntries arch.entries [] = .ok scratch ∧
      parseDescriptor scratch = .ok tree ∧
      resolveAll scratch tree = .ok pool ∧
      topoSort tree.units = some order ∧
      constructUnits reg pool order = .ok w.units ∧
      w.arrays = pool := by
  have hr : runLoad arch reg = .ok w := by
    cases hr : runLoad arch reg with
    | ok w' =>
      simp only [Load, hr] at h
      rw [Except.ok.inj h]
    | error e => simp [Load, hr] at h
  unfold runLoad at hr
  split at hr
  · cases hr
  · split at hr
    · cases hr
    · split at hr
      · cases hr
      · rename_i a scratch he b tree hp c pool hb
        unfold linkAll at hr
        split at hr
        · cases hr
        · split at hr
          · cases hr
          · rename_i d order ho e2 cus hc
            have hw : w = ⟨cus, pool⟩ := (Except.ok.inj hr).symm
            refine ⟨scratch, tree, pool, order, he, hp, hb, ho, ?_, ?_⟩
            · rw [hw]
              exact hc
            · rw [hw]

theorem indexOfPath_some_get :
    ∀ (pool : List ArrayVal) (p : String) (i : Nat),
    indexOfPath pool p = some i →
    ∃ h : i < pool.length, (pool.get ⟨i, h⟩).path = p := by
  intro pool
  induction pool with
  | nil => intro p i h; cases h
  | cons a rest ih =>
    intro p i h
    unfold indexOfPath at h
    by_cases hp : a.path = p
    · rw [if_pos hp] at h
      cases h
      exact ⟨Nat.succ_pos _, hp⟩
    · rw [if_neg hp] at h
      cases hi : indexOfPath rest p with
      | none => rw [hi] at h; cases h
      | some j =>
        rw [hi] at h
        simp only [Option.map_some'] at h
        cases h
        obtain ⟨hj, hjp⟩ := ih p j hi
        exact ⟨Nat.succ_lt_succ hj, hjp⟩

theorem indexOfPath_none_iff :
    ∀ (pool : List ArrayVal) (p : String),
    indexOfPath pool p = none ↔ p ∉ pool.map (fun a => a.path) := by
  intro pool
  induction pool with
  | nil => simp [indexOfPath]
  | cons a rest ih =>
    intro p
    unfold indexOfPath
    by_cases hp : a.path = p
    · simp [hp]
    · simp only [if_neg hp, List.map_cons, List.mem_cons]
      constructor
      · intro h hmem
        rcases hmem with heq | hmem
        · exact hp heq.symm
        · rw [Option.map_eq_none'] at h
          exact (ih p).mp h hmem
      · intro h
        rw [Option.map_eq_none', ih p]
        intro hmem
        exact h (Or.inr hmem)

theorem indexOfPath_append_of_some :
    ∀ (pool ext : List ArrayVal) (p : String) (i : Nat),
    indexOfPath pool p = some i → indexOfPath (pool ++ ext) p = some i := by
  intro pool
  induction pool with
  | nil => intro ext p i h; cases h
  | cons a rest ih =>
    intro ext p i h
    simp only [List.cons_append, List.append_eq, indexOfPath] at h ⊢
    by_cases hp : a.path = p
    · rw [if_pos hp] at h ⊢
      exact h
    · rw [if_neg hp] at h ⊢
      cases hi : indexOfPath rest p with
      | none => rw [hi] at h; cases h
      | some j =>
        rw [hi] at h
        rw [ih ext p j hi]
        exact h

theorem indexOfPath_append_self :
    ∀ (pool : List ArrayVal) (a : ArrayVal),
    indexOfPath pool a.path = none →
    indexOfPath (pool ++ [a]) a.path = some pool.length := by
  intro pool
  induction pool with
  | nil => intro a h; simp [indexOfPath]
  | cons b rest ih =>
    intro a h
    simp only [List.cons_append, List.append_eq, indexOfPath] at h ⊢
    by_cases hp : b.path = a.path
    · rw [if_pos hp] at h
      cases h
    · rw [if_neg hp] at h ⊢
      rw [Option.map_eq_none'] at h
      rw [ih a h]
      simp

theorem resolveRefs_ok_extends (scratch : Scratch) :
    ∀ (refs : List BlobRef) (pool pool' : List ArrayVal),
    resolveRefs scratch refs pool = .ok pool' →
    ∃ ext, pool' = pool ++ ext := by
  intro refs
  induction refs with
  | nil =>
    intro pool pool' h
    cases h
    exact ⟨[], by simp⟩
  | cons r0 rest ih =>
    intro pool pool' h
    unfold resolveRefs at h
    split at h
    · cases h
    · split at h
      · split at h
        · split at h
          · split at h
            · exact ih _ _ h
            · obtain ⟨ext, hext⟩ := ih _ _ h
              exact ⟨_, by rw [hext, List.append_assoc]⟩
          · cases h
        · cases h
      · cases h

theorem resolveRefs_ok_covers (scratch : Scratch) :
    ∀ (refs : List BlobRef) (pool pool' : List ArrayVal),
    resolveRefs scratch refs pool = .ok pool' →
    ∀ r ∈ refs, ∃ i, indexOfPath pool' r.path = some i := by
  intro refs
  induction refs with
  | nil => intro pool pool' h r hr; cases hr
  | cons r0 rest ih =>
    intro pool pool' h r hr
    unfold resolveRefs at h
    split at h
    · cases h
    · split at h
      · split at h
        · rename_i hshape bs hlk
          split at h
          · rename_i hlen
            split at h
            · rename_i i0 hidx
              rcases List.mem_cons.mp hr with rfl | hmem
              · obtain ⟨ext, hext⟩ := resolveRefs_ok_extends scratch rest _ _ h
                exact ⟨i0, by rw [hext]; exact indexOfPath_append_of_some _ _ _ _ hidx⟩
              · exact ih _ _ h r hmem
            · rename_i hidx
              rcases List.mem_cons.mp hr with rfl | hmem
              · obtain ⟨ext, hext⟩ := resolveRefs_ok_extends scratch rest _ _ h
                refine ⟨pool.length, ?_⟩
                rw [hext]
                exact indexOfPath_append_of_some _ ext _ _
                  (indexOfPath_append_self pool ⟨r.path, r.element_type, r.shape, bs⟩ hidx)
              · exact ih _ _ h r hmem
          · cases h
        · cases h
      · cases h

theorem resolveRefs_ok_nodup (scratch : Scratch) :
    ∀ (refs : List BlobRef) (pool pool' : List ArrayVal),
    (pool.map (fun a => a.path)).Nodup →
    resolveRefs scratch refs pool = .ok pool' →
    (pool'.map (fun a => a.path)).Nodup := by
  intro refs
  induction refs with
  | nil =>
    intro pool pool' hnd h
    cases h
    exact hnd
  | cons r0 rest ih =>
    intro pool pool' hnd h
    unfold resolveRefs at h
    split at h
    · cases h
    · split at h
      · split at h
        · split at h
          · split at h
            · exact ih _ _ hnd h
            · rename_i hidx
              refine ih _ _ ?_ h
              rw [(indexOfPath_none_iff pool r0.path)] at hidx
              simp only [List.map_append, List.map_cons, List.map_nil]
              rw [List.nodup_append]
              exact ⟨hnd, List.nodup_singleton _, by simpa using hidx⟩
          · cases h
        · cases h
      · cases h

theorem filter_path_nil :
    ∀ (pool : List ArrayVal) (p : String),
    p ∉ pool.map (fun a => a.path) →
    pool.filter (fun a => a.path = p) = [] := by
  intro pool
  induction pool with
  | nil => intro p h; rfl
  | cons a rest ih =>
    intro p h
    have h1 : p ≠ a.path := by
      intro hc
      exact h (by simp [hc])
    have h2 : p ∉ rest.map (fun x => x.path) := by
      intro hc
      exact h (by simp [hc])
    rw [List.filter_cons]
    rw [if_neg (by simp only [decide_eq_true_eq]; exact fun hc => h1 hc.symm)]
    exact ih p h2

theorem filter_path_one :
    ∀ (pool : List ArrayVal) (p : String),
    (pool.map (fun a => a.path)).Nodup →
    p ∈ pool.map (fun a => a.path) →
    (pool.filter (fun a => a.path = p)).length = 1 := by
  intro pool
  induction pool with
  | nil => intro p hnd hp; cases hp
  | cons a rest ih =>
    intro p hnd hp
    have hnd' := List.nodup_cons.mp hnd
    rw [List.filter_cons]
    by_cases hap : a.path = p
    · rw [if_pos (by simp [hap])]
      rw [filter_path_nil rest p (by rw [← hap]; exact hnd'.1)]
      rfl
    · rw [if_neg (by simp only [decide_eq_true_eq]; exact hap)]
      have hmem : p ∈ rest.map (fun x => x.path) := by
        rcases List.mem_cons.mp hp with heq | hm
        · exact absurd heq.symm hap
        · exact hm
      exact ih p hnd'.2 hmem

theorem extractReady_perm (placed : List String) :
    ∀ (l : List UnitSpec) (u : UnitSpec) (rest : List UnitSpec),
    extractReady placed l = some (u, rest) →
    l.Perm (u :: rest) ∧ readyUnit placed u = true := by
  intro l
  induction l with
  | nil => intro u rest h; cases h
  | cons a tail ih =>
    intro u rest h
    unfold extractReady at h
    by_cases hr : readyUnit placed a = true
    · rw [if_pos hr] at h
      cases h
      exact ⟨List.Perm.refl _, hr⟩
    · rw [if_neg hr] at h
      cases he : extractReady placed tail with
      | none => rw [he] at h; cases h
      | some p =>
        rw [he] at h
        simp only [Option.map_some'] at h
        cases h
        obtain ⟨hperm, hready⟩ := ih p.1 p.2 (by rw [he])
        refine ⟨?_, hready⟩
        have h1 : (a :: tail).Perm (a :: p.1 :: p.2) := hperm.cons a
        have h2 : (a :: p.1 :: p.2).Perm (p.1 :: a :: p.2) := List.Perm.swap p.1 a p.2
        exact h1.trans h2

theorem kahnLoop_perm :
    ∀ (fuel : Nat) (placed : List String) (rem order : List UnitSpec),
    kahnLoop fuel placed rem = some order → rem.Perm order := by
  intro fuel
  induction fuel with
  | zero =>
    intro placed rem order h
    cases rem with
    | nil => cases h; exact List.Perm.refl _
    | cons a tail => cases h
  | succ n ih =>
    intro placed rem order h
    cases rem with
    | nil => cases h; exact List.Perm.refl _
    | cons a tail =>
      unfold kahnLoop at h
      split at h
      · cases h
      · rename_i p v vs he
        cases ho : kahnLoop n (v.id :: placed) vs with
        | none => rw [ho] at h; cases h
        | some order' =>
          rw [ho] at h
          simp only [Option.map_some'] at h
          cases h
          have h1 := (extractReady_perm placed (a :: tail) v vs he).1
          exact h1.trans ((ih _ _ _ ho).cons v)

theorem topoSort_perm (units order : List UnitSpec)
    (h : topoSort units = some order) : units.Perm order :=
  kahnLoop_perm units.length [] units order h

theorem constructUnit_ok_fields (reg : Registry) (pool : List ArrayVal)
    (u : UnitSpec) (cu : WorkflowUnit)
    (h : constructUnit reg pool u = .ok cu) :
    cu.id = u.id ∧ cu.type_name = u.type_name ∧ cu.links = u.links ∧
    linkProps pool u.properties = .ok cu.properties := by
  unfold constructUnit at h
  split at h
  · cases h
  · split at h
    · split at h
      · split at h
        · cases h
        · rename_i hprops
          cases h
          exact ⟨rfl, rfl, rfl, hprops⟩
      · cases h
    · cases h

theorem constructUnits_mem (reg : Registry) (pool : List ArrayVal) :
    ∀ (l : List UnitSpec) (cus : List WorkflowUnit),
    constructUnits reg pool l = .ok cus →
    ∀ u ∈ l, ∃ cu, cu ∈ cus ∧ constructUnit reg pool u = .ok cu := by
  intro l
  induction l with
  | nil => intro cus h u hu; cases hu
  | cons a tail ih =>
    intro cus h u hu
    unfold constructUnits at h
    split at h
    · cases h
    · rename_i cu0 hc0
      split at h
      · cases h
      · rename_i cus0 hcs
        cases h
        rcases List.mem_cons.mp hu with rfl | hmem
        · exact ⟨cu0, List.mem_cons_self _ _, hc0⟩
        · obtain ⟨cu, hcu, hok⟩ := ih cus0 hcs u hmem
          exact ⟨cu, List.mem_cons_of_mem _ hcu, hok⟩

theorem linkProps_mem_blob (pool : List ArrayVal) :
    ∀ (props : List (String × PropertyValue))
      (rprops : List (String × ResolvedValue)),
    linkProps pool props = .ok rprops →
    ∀ (n : String) (r : BlobRef), (n, PropertyValue.blob r) ∈ props →
    ∃ i, indexOfPath pool r.path = some i ∧
      (n, ResolvedValue.array i) ∈ rprops := by
  intro props
  induction props with
  | nil => intro rprops h n r hn; cases hn
  | cons p tail ih =>
    intro rprops h n r hn
    unfold linkProps at h
    split at h
    · cases h
    · rename_i rv hrv
      split at h
      · cases h
      · rename_i rvs hrvs
        cases h
        rcases List.mem_cons.mp hn with heq | hmem
        · have hp2 : p.2 = PropertyValue.blob r := by rw [← heq]
          rw [hp2] at hrv
          simp only [linkValue] at hrv
          cases hi : indexOfPath pool r.path with
          | none => rw [hi] at hrv; cases hrv
          | some i =>
            rw [hi] at hrv
            cases hrv
            refine ⟨i, rfl, ?_⟩
            have hp1 : p.1 = n := by rw [← heq]
            rw [← hp1]
            exact List.mem_cons_self _ _
        · obtain ⟨i, hi, hmem'⟩ := ih rvs hrvs n r hmem
          exact ⟨i, hi, List.mem_cons_of_mem _ hmem'⟩

/-! # Claim theorems -/

/-- C10: `what()` on `WorkflowLoadingFailedException(file, reason)` returns
exactly `'Extraction of the workflow "' + file + '" has failed due to ' +
reason + '.'`; the message is fixed at construction (`what` returns the
stored `message_`, so repeated calls return the same content). -/
theorem c10_exception_message (file reason : String) :
    (mkWorkflowLoadingFailedException file reason).what =
      "Extraction of the workflow \"" ++ file ++ "\" has failed due to " ++
        reason ++ "." ∧
    (mkWorkflowLoadingFailedException file reason).what =
      (mkWorkflowLoadingFailedException file reason).message_ :=
  ⟨rfl, rfl⟩

/-- C1: for every call to `Load`, whether it returns a `Workflow` or fails
with an error, the scratch area created for that load no longer exists on
disk when `Load` returns. -/
theorem c1_scratch_released (arch : Archive) (reg : Registry) (disk : Disk) :
    (Load arch reg disk).2.scratch = none := rfl

/-- C2: a failed `Load` returns no partially constructed `Workflow`,
leaves the caller's state (the files outside the scratch root) unchanged
with the scratch area removed, and surfaces exactly one diagnostic naming
the archive path and a nonempty reason. -/
theorem c2_failed_load_contract (arch : Archive) (reg : Registry) (disk : Disk)
    (d : Diagnostic) (h : (Load arch reg disk).1 = .error d) :
    (∀ w : Workflow, (Load arch reg disk).1 ≠ .ok w) ∧
    (Load arch reg disk).2 = ⟨disk.external, none⟩ ∧
    d.file = arch.path ∧ d.reason ≠ "" := by
  obtain ⟨k, m, hr, rfl⟩ := load_error_shape arch reg disk d h
  refine ⟨?_, rfl, rfl, runLoad_error arch reg k m hr⟩
  intro w hw
  rw [h] at hw
  cases hw

/-- Witness for C2 at a concrete failing load: an archive with no
descriptor entry. -/
theorem c2_failed_load_contract_witness :
    (Load ⟨"pkg.tar", []⟩ (fun _ => none) ⟨[], none⟩).1 =
      .error ⟨"pkg.tar", .invalidPackage, "missing descriptor"⟩ ∧
    (∀ w : Workflow,
      (Load ⟨"pkg.tar", []⟩ (fun _ => none) ⟨[], none⟩).1 ≠ .ok w) ∧
    (Load ⟨"pkg.tar", []⟩ (fun _ => none) ⟨[], none⟩).2 = ⟨[], none⟩ ∧
    ("pkg.tar" : String) = "pkg.tar" ∧ ("missing descriptor" : String) ≠ "" := by
  have hc := c2_failed_load_contract ⟨"pkg.tar", []⟩ (fun _ => none) ⟨[], none⟩
    ⟨"pkg.tar", .invalidPackage, "missing descriptor"⟩ rfl
  exact ⟨rfl, hc.1, hc.2.1, hc.2.2.1, hc.2.2.2⟩

/-- C7: the parser reads exactly the file at `<scratch>/<kMainFile>` (its
result depends only on that file), and if no file exists at that fixed
well-known path, `Load` fails with `InvalidPackage(missing descriptor)`. -/
theorem c7_descriptor_at_fixed_path :
    (∀ s1 s2 : Scratch, lookupFile s1 kMainFile = lookupFile s2 kMainFile →
      parseDescriptor s1 = parseDescriptor s2) ∧
    (∀ (arch : Archive) (reg : Registry) (disk : Disk) (scratch : Scratch),
      extractEntries arch.entries [] = .ok scratch →
      lookupFile scratch kMainFile = none →
      (Load arch reg disk).1 =
        .error ⟨arch.path, .invalidPackage, "missing descriptor"⟩) := by
  constructor
  · intro s1 s2 hlk
    unfold parseDescriptor
    rw [hlk]
  · intro arch reg disk scratch he hlk
    have hp : parseDescriptor scratch = .error (.invalidPackage, "missing descriptor") := by
      unfold parseDescriptor
      rw [hlk]
    simp [Load, runLoad, he, hp]

/-- Witness for C7 at a concrete package with no descriptor entry. -/
theorem c7_descriptor_at_fixed_path_witness :
    (Load ⟨"pkg.tar", []⟩ (fun _ => none) ⟨[], none⟩).1 =
      .error ⟨"pkg.tar", .invalidPackage, "missing descriptor"⟩ :=
  c7_descriptor_at_fixed_path.2 ⟨"pkg.tar", []⟩ (fun _ => none) ⟨[], none⟩ [] rfl rfl

/-- C3: for every archive containing an entry whose name is an absolute
path, contains a `..` segment, or lexically resolves outside the scratch
root, `Load` fails with `ExtractionFailed`, and no file is written outside
the scratch root (the files outside the scratch root are unchanged and the
scratch area is removed). -/
theorem c3_traversal_rejected (arch : Archive) (reg : Registry) (disk : Disk)
    (e : Entry) (he : e ∈ arch.entries)
    (hu : startsWithSlash e.name = true ∨ dotdot ∈ pathSegs e.name ∨
      lexDepth 0 (pathSegs e.name) = none) :
    ∃ d, Load arch reg disk = (.error d, ⟨disk.external, none⟩) ∧
      d.kind = .extractionFailed ∧ d.file = arch.path := by
  have hunsafe := isSafeName_eq_false_of e.name hu
  obtain ⟨⟨k, m⟩, hd⟩ := extractEntries_fails arch.entries e he hunsafe []
  have hk := (extractEntries_error arch.entries [] k m hd).1
  refine ⟨⟨arch.path, k, m⟩, ?_, hk, rfl⟩
  simp [Load, runLoad, hd]

/-- Witness for C3: the archive holds the entry `../etc/passwd`. -/
theorem c3_traversal_rejected_witness :
    ∃ d, Load ⟨"pkg.tar", [⟨"../etc/passwd", .file, .blob []⟩]⟩
        (fun _ => none) ⟨[("outside.txt", [1])], none⟩ =
      (.error d, ⟨[("outside.txt", [1])], none⟩) ∧
      d.kind = .extractionFailed ∧ d.file = "pkg.tar" :=
  c3_traversal_rejected ⟨"pkg.tar", [⟨"../etc/passwd", .file, .blob []⟩]⟩
    (fun _ => none) ⟨[("outside.txt", [1])], none⟩
    ⟨"../etc/passwd", .file, .blob []⟩ (List.mem_singleton.mpr rfl)
    (Or.inr (Or.inl (by decide)))

/-- C9: for every descriptor containing two `UnitSpec`s with the same
`id`, `Load` fails with `InvalidDescriptor` (the descriptor parser
rejects the duplicate before linking). -/
theorem c9_duplicate_id (arch : Archive) (reg : Registry) (disk : Disk)
    (scratch : Scratch) (t : DescriptorTree)
    (he : extractEntries arch.entries [] = .ok scratch)
    (hm : lookupFile scratch kMainFile = some (.descriptor t))
    (i j : Nat) (hi : i < t.units.length) (hj : j < t.units.length)
    (hij : i ≠ j)
    (hid : (t.units.get ⟨i, hi⟩).id = (t.units.get ⟨j, hj⟩).id) :
    (Load arch reg disk).1 =
      .error ⟨arch.path, .invalidDescriptor, "duplicate unit id"⟩ := by
  have hdup : hasDupIds t.units = true := by
    by_contra hnd
    have hnd' : hasDupIds t.units = false := by
      cases hx : hasDupIds t.units
      · rfl
      · exact absurd hx hnd
    have hnodup := nodup_of_hasDupIds_eq_false t.units hnd'
    have hgi : (t.units.map (fun u => u.id)).get ⟨i, by simp [hi]⟩ =
        (t.units.map (fun u => u.id)).get ⟨j, by simp [hj]⟩ := by
      simp only [List.get_map]
      exact hid
    have := (List.Nodup.get_inj_iff hnodup).mp hgi
    exact hij (by simpa using this)
  have hp : parseDescriptor scratch = .error (.invalidDescriptor, "duplicate unit id") := by
    unfold parseDescriptor
    rw [hm]
    simp [hdup]
  simp [Load, runLoad, he, hp]

/-- Witness for C9: a two-unit descriptor whose units share the id `a`. -/
theorem c9_duplicate_id_witness :
    (Load ⟨"pkg.tar", [⟨"workflow.yaml", .file,
        .descriptor ⟨[⟨"a", "t", [], []⟩, ⟨"a", "t", [], []⟩]⟩⟩]⟩
      (fun _ => none) ⟨[], none⟩).1 =
    .error ⟨"pkg.tar", .invalidDescriptor, "duplicate unit id"⟩ :=
  c9_duplicate_id ⟨"pkg.tar", [⟨"workflow.yaml", .file,
      .descriptor ⟨[⟨"a", "t", [], []⟩, ⟨"a", "t", [], []⟩]⟩⟩]⟩
    (fun _ => none) ⟨[], none⟩
    [("workflow.yaml", .descriptor ⟨[⟨"a", "t", [], []⟩, ⟨"a", "t", [], []⟩]⟩)]
    ⟨[⟨"a", "t", [], []⟩, ⟨"a", "t", [], []⟩]⟩ rfl rfl
    0 1 (by decide) (by decide) (by decide) rfl

/-- C4: the blob resolver checks `file_size == product(shape) ×
sizeof(element_type)`: a mismatch (including off by one byte) makes
`Load` fail with `InvalidBlob`, and in every successful load each
resulting array has `byte_length == product(shape) × sizeof(dtype)`. -/
theorem c4_blob_size_check :
    (∀ (arch : Archive) (reg : Registry) (disk : Disk) (scratch : Scratch)
      (tree : DescriptorTree) (r : BlobRef) (bs : List Nat),
      extractEntries arch.entries [] = .ok scratch →
      parseDescriptor scratch = .ok tree →
      r ∈ treeRefs tree →
      lookupFile scratch r.path = some (.blob bs) →
      bs.length ≠ expectedBytes r →
      ∃ d, (Load arch reg disk).1 = .error d ∧ d.kind = .invalidBlob ∧
        d.file = arch.path) ∧
    (∀ (arch : Archive) (reg : Registry) (disk : Disk) (w : Workflow),
      (Load arch reg disk).1 = .ok w →
      ∀ a ∈ w.arrays, a.bytes.length = shapeSize a.shape * a.dtype.byteSize) := by
  constructor
  · intro arch reg disk scratch tree r bs he hp hr hlk hlen
    cases hres : resolveAll scratch tree with
    | ok pool =>
      exfalso
      obtain ⟨-, -, bs', hlk', hlen'⟩ :=
        resolveRefs_ok_sound scratch (treeRefs tree) [] pool hres r hr
      rw [hlk] at hlk'
      have hbs : bs = bs' := by
        cases hlk'
        · rfl
      exact hlen (hbs ▸ hlen')
    | error e =>
      cases e with
      | mk k m =>
        have hk := (resolveRefs_error scratch (treeRefs tree) [] k m hres).1
        refine ⟨⟨arch.path, k, m⟩, ?_, hk, rfl⟩
        simp [Load, runLoad, he, hp, hres]
  · intro arch reg disk w h a ha
    obtain ⟨scratch, tree, pool, order, he, hp, hb, ho, hc, hap⟩ :=
      load_ok_shape arch reg disk w h
    rw [hap] at ha
    rcases resolveRefs_ok_mem scratch (treeRefs tree) [] pool hb a ha with
      hin | ⟨r, bs, hr, hlk, hlen, rfl⟩
    · cases hin
    · simpa [expectedBytes] using hlen

/-- Witness for C4: a 2×2 `f32` blob expects 16 bytes; a 15-byte file
fails with `InvalidBlob`, while the 16-byte package loads and its array
has 16 bytes. -/
theorem c4_blob_size_check_witness :
    (∃ d, (Load ⟨"pkg.tar",
        [⟨"workflow.yaml", .file, .descriptor
            ⟨[⟨"a", "src", [("data", .blob ⟨"w.bin", .f32, [2, 2]⟩)], []⟩]⟩⟩,
         ⟨"w.bin", .file, .blob (List.replicate 15 0)⟩]⟩
        (fun _ => some ⟨fun _ => true, 0⟩) ⟨[], none⟩).1 = .error d ∧
      d.kind = .invalidBlob ∧ d.file = "pkg.tar") ∧
    (∀ a ∈ (⟨[⟨"a", "src", [("data", .array 0)], []⟩],
        [⟨"w.bin", .f32, [2, 2], List.replicate 16 0⟩]⟩ : Workflow).arrays,
      a.bytes.length = shapeSize a.shape * a.dtype.byteSize) := by
  constructor
  · exact c4_blob_size_check.1 ⟨"pkg.tar",
      [⟨"workflow.yaml", .file, .descriptor
          ⟨[⟨"a", "src", [("data", .blob ⟨"w.bin", .f32, [2, 2]⟩)], []⟩]⟩⟩,
       ⟨"w.bin", .file, .blob (List.replicate 15 0)⟩]⟩
      (fun _ => some ⟨fun _ => true, 0⟩) ⟨[], none⟩
      [("w.bin", .blob (List.replicate 15 0)),
       ("workflow.yaml", .descriptor
          ⟨[⟨"a", "src", [("data", .blob ⟨"w.bin", .f32, [2, 2]⟩)], []⟩]⟩)]
      ⟨[⟨"a", "src", [("data", .blob ⟨"w.bin", .f32, [2, 2]⟩)], []⟩]⟩
      ⟨"w.bin", .f32, [2, 2]⟩ (List.replicate 15 0)
      rfl rfl (List.mem_singleton.mpr rfl) rfl (by decide)
  · exact c4_blob_size_check.2 ⟨"pkg.tar",
      [⟨"workflow.yaml", .file, .descriptor
          ⟨[⟨"a", "src", [("data", .blob ⟨"w.bin", .f32, [2, 2]⟩)], []⟩]⟩⟩,
       ⟨"w.bin", .file, .blob (List.replicate 16 0)⟩]⟩
      (fun _ => some ⟨fun _ => true, 0⟩) ⟨[], none⟩
      ⟨[⟨"a", "src", [("data", .array 0)], []⟩],
       [⟨"w.bin", .f32, [2, 2], List.replicate 16 0⟩]⟩ rfl

/-- C6: when two `BlobRef`s carry the same canonicalized `path`, a
successful `Load` materializes exactly one array instance for that path,
and the referencing units share that single underlying array (their
resolved properties hold the same pool index). -/
theorem c6_shared_blob_identity (arch : Archive) (reg : Registry) (disk : Disk)
    (w : Workflow) (scratch : Scratch) (tree : DescriptorTree)
    (u1 u2 : UnitSpec) (n1 n2 : String) (r1 r2 : BlobRef)
    (h : (Load arch reg disk).1 = .ok w)
    (he : extractEntries arch.entries [] = .ok scratch)
    (hp : parseDescriptor scratch = .ok tree)
    (hu1 : u1 ∈ tree.units) (hu2 : u2 ∈ tree.units)
    (hn1 : (n1, PropertyValue.blob r1) ∈ u1.properties)
    (hn2 : (n2, PropertyValue.blob r2) ∈ u2.properties)
    (hpath : r1.path = r2.path) :
    ∃ i cu1 cu2, cu1 ∈ w.units ∧ cu2 ∈ w.units ∧
      cu1.id = u1.id ∧ cu2.id = u2.id ∧
      (n1, ResolvedValue.array i) ∈ cu1.properties ∧
      (n2, ResolvedValue.array i) ∈ cu2.properties ∧
      (w.arrays.filter (fun a => a.path = r1.path)).length = 1 := by
  obtain ⟨scratch', tree', pool, order, he', hp', hb, ho, hc, hap⟩ :=
    load_ok_shape arch reg disk w h
  rw [he] at he'
  cases he'
  rw [hp] at hp'
  cases hp'
  have hperm := topoSort_perm tree.units order ho
  have hu1' : u1 ∈ order := hperm.mem_iff.mp hu1
  have hu2' : u2 ∈ order := hperm.mem_iff.mp hu2
  obtain ⟨cu1, hcu1, hok1⟩ := constructUnits_mem reg pool order w.units hc u1 hu1'
  obtain ⟨cu2, hcu2, hok2⟩ := constructUnits_mem reg pool order w.units hc u2 hu2'
  obtain ⟨hid1, -, -, hlp1⟩ := constructUnit_ok_fields reg pool u1 cu1 hok1
  obtain ⟨hid2, -, -, hlp2⟩ := constructUnit_ok_fields reg pool u2 cu2 hok2
  obtain ⟨i1, hi1, hm1⟩ :=
    linkProps_mem_blob pool u1.properties cu1.properties hlp1 n1 r1 hn1
  obtain ⟨i2, hi2, hm2⟩ :=
    linkProps_mem_blob pool u2.properties cu2.properties hlp2 n2 r2 hn2
  have hi1' : indexOfPath pool r2.path = some i1 := by
    rw [← hpath]
    exact hi1
  have hi12 : i1 = i2 := by
    rw [hi1'] at hi2
    exact Option.some.inj hi2
  have hnodup := resolveRefs_ok_nodup scratch (treeRefs tree) [] pool (by simp) hb
  obtain ⟨hlt, hgetp⟩ := indexOfPath_some_get pool r1.path i1 hi1
  have hmem : r1.path ∈ pool.map (fun a => a.path) :=
    List.mem_map.mpr ⟨pool.get ⟨i1, hlt⟩, List.get_mem pool i1 hlt, hgetp⟩
  refine ⟨i1, cu1, cu2, hcu1, hcu2, hid1, hid2, hm1, ?_, ?_⟩
  · rw [hi12]
    exact hm2
  · rw [hap]
    exact filter_path_one pool r1.path hnodup hmem

/-- Witness for C6: units `a` and `b` both reference `w.bin`; the loaded
workflow holds a single pooled array and both units point at index 0. -/
theorem c6_shared_blob_identity_witness :
    ∃ i cu1 cu2,
      cu1 ∈ (⟨[⟨"a", "src", [("data", .array 0)], []⟩,
               ⟨"b", "src", [("data", .array 0)], []⟩],
              [⟨"w.bin", .f32, [2, 2], List.replicate 16 0⟩]⟩ : Workflow).units ∧
      cu2 ∈ (⟨[⟨"a", "src", [("data", .array 0)], []⟩,
               ⟨"b", "src", [("data", .array 0)], []⟩],
              [⟨"w.bin", .f32, [2, 2], List.replicate 16 0⟩]⟩ : Workflow).units ∧
      cu1.id = "a" ∧ cu2.id = "b" ∧
      ("data", ResolvedValue.array i) ∈ cu1.properties ∧
      ("data", ResolvedValue.array i) ∈ cu2.properties ∧
      ((⟨[⟨"a", "src", [("data", .array 0)], []⟩,
          ⟨"b", "src", [("data", .array 0)], []⟩],
         [⟨"w.bin", .f32, [2, 2], List.replicate 16 0⟩]⟩ : Workflow).arrays.filter
        (fun a => a.path = "w.bin")).length = 1 :=
  c6_shared_blob_identity
    ⟨"pkg.tar",
      [⟨"workflow.yaml", .file, .descriptor
          ⟨[⟨"a", "src", [("data", .blob ⟨"w.bin", .f32, [2, 2]⟩)], []⟩,
            ⟨"b", "src", [("data", .blob ⟨"w.bin", .f32, [2, 2]⟩)], []⟩]⟩⟩,
       ⟨"w.bin", .file, .blob (List.replicate 16 0)⟩]⟩
    (fun _ => some ⟨fun _ => true, 0⟩) ⟨[], none⟩
    ⟨[⟨"a", "src", [("data", .array 0)], []⟩,
      ⟨"b", "src", [("data", .array 0)], []⟩],
     [⟨"w.bin", .f32, [2, 2], List.replicate 16 0⟩]⟩
    [("w.bin", .blob (List.replicate 16 0)),
     ("workflow.yaml", .descriptor
        ⟨[⟨"a", "src", [("data", .blob ⟨"w.bin", .f32, [2, 2]⟩)], []⟩,
          ⟨"b", "src", [("data", .blob ⟨"w.bin", .f32, [2, 2]⟩)], []⟩]⟩)]
    ⟨[⟨"a", "src", [("data", .blob ⟨"w.bin", .f32, [2, 2]⟩)], []⟩,
      ⟨"b", "src", [("data", .blob ⟨"w.bin", .f32, [2, 2]⟩)], []⟩]⟩
    ⟨"a", "src", [("data", .blob ⟨"w.bin", .f32, [2, 2]⟩)], []⟩
    ⟨"b", "src", [("data", .blob ⟨"w.bin", .f32, [2, 2]⟩)], []⟩
    "data" "data" ⟨"w.bin", .f32, [2, 2]⟩ ⟨"w.bin", .f32, [2, 2]⟩
    rfl rfl rfl
    (by simp) (by simp)
    (List.mem_singleton.mpr rfl) (List.mem_singleton.mpr rfl) rfl

theorem readyUnit_links (placed : List String) (u : UnitSpec)
    (h : readyUnit placed u = true) : ∀ l ∈ u.links, l ∈ placed := by
  intro l hl
  unfold readyUnit at h
  rw [List.all_eq_true] at h
  exact (memb_iff l placed).mp (h l hl)

theorem kahnLoop_topoOk :
    ∀ (fuel : Nat) (placed : List String) (rem order : List UnitSpec),
    kahnLoop fuel placed rem = some order → TopoOk placed order := by
  intro fuel
  induction fuel with
  | zero =>
    intro placed rem order h
    cases rem with
    | nil => cases h; trivial
    | cons a tail => cases h
  | succ n ih =>
    intro placed rem order h
    cases rem with
    | nil => cases h; trivial
    | cons a tail =>
      unfold kahnLoop at h
      split at h
      · cases h
      · rename_i p v vs he
        cases ho : kahnLoop n (v.id :: placed) vs with
        | none => rw [ho] at h; cases h
        | some order' =>
          rw [ho] at h
          simp only [Option.map_some'] at h
          cases h
          exact ⟨readyUnit_links placed v
            (extractReady_perm placed (a :: tail) v vs he).2, ih _ _ _ ho⟩

theorem topoOk_position :
    ∀ (l : List UnitSpec) (placed : List String), TopoOk placed l →
    ∀ (j : Nat) (hj : j < l.length), ∀ x ∈ (l.get ⟨j, hj⟩).links,
    x ∈ placed ∨ ∃ i, ∃ hi : i < j, (l.get ⟨i, Nat.lt_trans hi hj⟩).id = x := by
  intro l
  induction l with
  | nil =>
    intro placed h j hj
    exact absurd hj (Nat.not_lt_zero j)
  | cons u rest ih =>
    intro placed h j hj x hx
    cases j with
    | zero => exact Or.inl (h.1 x hx)
    | succ j' =>
      have hj' : j' < rest.length := Nat.lt_of_succ_lt_succ hj
      rcases ih (u.id :: placed) h.2 j' hj' x hx with hpl | ⟨i, hi, hid⟩
      · rcases List.mem_cons.mp hpl with heq | hpl'
        · exact Or.inr ⟨0, Nat.succ_pos j', heq.symm⟩
        · exact Or.inl hpl'
      · exact Or.inr ⟨i + 1, Nat.succ_lt_succ hi, hid⟩

theorem constructUnits_idLinks (reg : Registry) (pool : List ArrayVal) :
    ∀ (l : List UnitSpec) (cus : List WorkflowUnit),
    constructUnits reg pool l = .ok cus →
    cus.map (fun c => (c.id, c.links)) = l.map (fun u => (u.id, u.links)) := by
  intro l
  induction l with
  | nil => intro cus h; cases h; rfl
  | cons a tail ih =>
    intro cus h
    unfold constructUnits at h
    split at h
    · cases h
    · rename_i cu0 hc0
      split at h
      · cases h
      · rename_i cus0 hcs
        cases h
        obtain ⟨hid, -, hlinks, -⟩ := constructUnit_ok_fields reg pool a cu0 hc0
        simp [hid, hlinks, ih cus0 hcs]

theorem map_idLinks_get (cus : List WorkflowUnit) (order : List UnitSpec)
    (hmap : cus.map (fun c => (c.id, c.links)) =
      order.map (fun u => (u.id, u.links)))
    (j : Nat) (hj : j < cus.length) :
    ∃ hj' : j < order.length,
      (cus.get ⟨j, hj⟩).id = (order.get ⟨j, hj'⟩).id ∧
      (cus.get ⟨j, hj⟩).links = (order.get ⟨j, hj'⟩).links := by
  have hlen : cus.length = order.length := by
    have hl := congrArg List.length hmap
    simpa using hl
  have hj' : j < order.length := hlen ▸ hj
  have h1 := List.get_of_eq hmap ⟨j, by simpa using hj⟩
  rw [List.get_map] at h1
  rw [List.get_map] at h1
  refine ⟨hj', ?_, ?_⟩
  · have h2 := congrArg Prod.fst h1
    simpa using h2
  · have h2 := congrArg Prod.snd h1
    simpa using h2

theorem parseDescriptor_ok (s : Scratch) (t : DescriptorTree)
    (h : parseDescriptor s = .ok t) :
    lookupFile s kMainFile = some (.descriptor t) ∧
    hasDupIds t.units = false := by
  unfold parseDescriptor at h
  split at h
  · cases h
  · cases h
  · rename_i t' hl
    split at h
    · cases h
    · rename_i hdup
      cases h
      exact ⟨hl, by simpa using hdup⟩

theorem topoSort_no_cycle (units order : List UnitSpec)
    (hnd : (units.map (fun u => u.id)).Nodup)
    (h : topoSort units = some order) : ¬ HasCycle units := by
  rintro ⟨a, hcyc⟩
  have hperm := topoSort_perm units order h
  have htopo := kahnLoop_topoOk units.length [] units order h
  have hndo : (order.map (fun u => u.id)).Nodup := ((hperm.map _).nodup_iff).mp hnd
  have step : ∀ x y, LinkRel units x y →
      ∀ (j : Nat) (hj : j < order.length), (order.get ⟨j, hj⟩).id = y →
      ∃ i, ∃ hi : i < j, (order.get ⟨i, Nat.lt_trans hi hj⟩).id = x := by
    intro x y hxy j hj hjy
    obtain ⟨u, hu, huy, hxl⟩ := hxy
    have huo : u ∈ order := hperm.mem_iff.mp hu
    obtain ⟨k, hk⟩ := List.mem_iff_get.mp huo
    have hkj : (k : Nat) = j := by
      have h1 : (order.map (fun u => u.id)).get ⟨k, by simpa using k.2⟩ =
          (order.map (fun u => u.id)).get ⟨j, by simpa using hj⟩ := by
        rw [List.get_map]
        rw [List.get_map]
        have hk' : order.get ⟨(k : Nat), by simpa using k.2⟩ = u := by
          rw [← hk]
        rw [hk', huy, hjy]
      have h2 := (List.Nodup.get_inj_iff hndo).mp h1
      simpa using h2
    have hgetj : order.get ⟨j, hj⟩ = u := by
      rw [← hk]
      congr 1
      exact Fin.ext hkj.symm
    rcases topoOk_position order [] htopo j hj x (by rw [hgetj]; exact hxl) with
      hpl | hfound
    · cases hpl
    · exact hfound
  have main : ∀ x y, Relation.TransGen (LinkRel units) x y →
      ∀ (j : Nat) (hj : j < order.length), (order.get ⟨j, hj⟩).id = y →
      ∃ i, ∃ hi : i < j, (order.get ⟨i, Nat.lt_trans hi hj⟩).id = x := by
    intro x y hxy
    induction hxy with
    | single h1 => exact step _ _ h1
    | tail h1 h2 ih =>
      intro j hj hjy
      obtain ⟨i, hi, hid⟩ := step _ _ h2 j hj hjy
      obtain ⟨i', hi', hid'⟩ := ih i (Nat.lt_trans hi hj) hid
      exact ⟨i', Nat.lt_trans hi' hi, hid'⟩
  obtain ⟨b, -, hba⟩ := Relation.TransGen.tail'_iff.mp hcyc
  obtain ⟨u, hu, hua, -⟩ := hba
  obtain ⟨k, hk⟩ := List.mem_iff_get.mp (hperm.mem_iff.mp hu)
  have hka : (order.get ⟨(k : Nat), k.2⟩).id = a := by
    have hk' : order.get ⟨(k : Nat), k.2⟩ = u := by rw [← hk]
    rw [hk', hua]
  obtain ⟨i, hi, hid⟩ := main a a hcyc (k : Nat) k.2 hka
  have h1 : (order.map (fun u => u.id)).get
        ⟨i, by simp only [List.length_map]; exact Nat.lt_trans hi k.2⟩ =
      (order.map (fun u => u.id)).get ⟨(k : Nat), by simpa using k.2⟩ := by
    rw [List.get_map]
    rw [List.get_map]
    rw [hid, hka]
  have h2 := (List.Nodup.get_inj_iff hndo).mp h1
  have h3 : i = (k : Nat) := by simpa using h2
  omega

/-- C5: in every successful `Load` the construction order of the units is
a topological order of the `links` relation (every predecessor is
constructed before its successor), and when the links relation contains a
cycle and the earlier stages pass, `Load` fails with `InvalidWorkflow`. -/
theorem c5_topological_order :
    (∀ (arch : Archive) (reg : Registry) (disk : Disk) (w : Workflow),
      (Load arch reg disk).1 = .ok w →
      ∀ (j : Nat) (hj : j < w.units.length),
        ∀ x ∈ (w.units.get ⟨j, hj⟩).links,
        ∃ i, ∃ hi : i < j, (w.units.get ⟨i, Nat.lt_trans hi hj⟩).id = x) ∧
    (∀ (arch : Archive) (reg : Registry) (disk : Disk) (scratch : Scratch)
      (tree : DescriptorTree) (pool : List ArrayVal),
      extractEntries arch.entries [] = .ok scratch →
      parseDescriptor scratch = .ok tree →
      resolveAll scratch tree = .ok pool →
      HasCycle tree.units →
      (Load arch reg disk).1 = .error
        ⟨arch.path, .invalidWorkflow, "cycle or dangling link in links relation"⟩) := by
  constructor
  · intro arch reg disk w h j hj x hx
    obtain ⟨scratch, tree, pool, order, he, hp, hb, ho, hc, hap⟩ :=
      load_ok_shape arch reg disk w h
    have hmap := constructUnits_idLinks reg pool order w.units hc
    obtain ⟨hj', hidj, hlinksj⟩ := map_idLinks_get w.units order hmap j hj
    have htopo := kahnLoop_topoOk tree.units.length [] tree.units order ho
    rcases topoOk_position order [] htopo j hj' x (by rw [← hlinksj]; exact hx) with
      hpl | ⟨i, hi, hid⟩
    · cases hpl
    · obtain ⟨hi'', hidi, hlinksi⟩ :=
        map_idLinks_get w.units order hmap i
          (by
            have hlen : w.units.length = order.length := by
              have hl := congrArg List.length hmap
              simpa using hl
            omega)
      refine ⟨i, hi, ?_⟩
      rw [hidi]
      have : (order.get ⟨i, hi''⟩).id = (order.get ⟨i, Nat.lt_trans hi hj'⟩).id := rfl
      rw [this, hid]
  · intro arch reg disk scratch tree pool he hp hres hcyc
    have hdup := (parseDescriptor_ok scratch tree hp).2
    have hnd := nodup_of_hasDupIds_eq_false tree.units hdup
    have hts : topoSort tree.units = none := by
      cases hts : topoSort tree.units with
      | none => rfl
      | some order => exact absurd hcyc (topoSort_no_cycle tree.units order hnd hts)
    have hl : linkAll reg pool tree =
        .error (.invalidWorkflow, "cycle or dangling link in links relation") := by
      unfold linkAll
      rw [hts]
    simp [Load, runLoad, he, hp, hres, hl]

/-- Witness for C5: the chain `a → b` loads with `a` constructed before
`b`, and the cycle `a→b→a` fails with `InvalidWorkflow`. -/
theorem c5_topological_order_witness :
    (∃ i, ∃ hi : i < 1,
      (((⟨[⟨"a", "src", [], []⟩, ⟨"b", "sink", [], ["a"]⟩], []⟩ :
        Workflow).units).get ⟨i, Nat.lt_trans hi (by decide)⟩).id = "a") ∧
    (Load ⟨"pkg.tar", [⟨"workflow.yaml", .file, .descriptor
        ⟨[⟨"a", "t", [], ["b"]⟩, ⟨"b", "t", [], ["a"]⟩]⟩⟩]⟩
      (fun _ => some ⟨fun _ => true, 1⟩) ⟨[], none⟩).1 = .error
        ⟨"pkg.tar", .invalidWorkflow, "cycle or dangling link in links relation"⟩ := by
  constructor
  · exact c5_topological_order.1
      ⟨"pkg.tar", [⟨"workflow.yaml", .file, .descriptor
          ⟨[⟨"a", "src", [], []⟩, ⟨"b", "sink", [], ["a"]⟩]⟩⟩]⟩
      (fun t => if t = "sink" then some ⟨fun _ => true, 1⟩ else some ⟨fun _ => true, 0⟩)
      ⟨[], none⟩
      ⟨[⟨"a", "src", [], []⟩, ⟨"b", "sink", [], ["a"]⟩], []⟩
      rfl 1 (by decide) "a" (by decide)
  · exact c5_topological_order.2
      ⟨"pkg.tar", [⟨"workflow.yaml", .file, .descriptor
          ⟨[⟨"a", "t", [], ["b"]⟩, ⟨"b", "t", [], ["a"]⟩]⟩⟩]⟩
      (fun _ => some ⟨fun _ => true, 1⟩) ⟨[], none⟩
      [("workflow.yaml", .descriptor ⟨[⟨"a", "t", [], ["b"]⟩, ⟨"b", "t", [], ["a"]⟩]⟩)]
      ⟨[⟨"a", "t", [], ["b"]⟩, ⟨"b", "t", [], ["a"]⟩]⟩ []
      rfl rfl rfl
      ⟨"a", Relation.TransGen.trans
        (Relation.TransGen.single
          ⟨⟨"b", "t", [], ["a"]⟩, by simp, rfl, by simp⟩)
        (Relation.TransGen.single
          ⟨⟨"a", "t", [], ["b"]⟩, by simp, rfl, by simp⟩)⟩

theorem extractReady_none (placed : List String) :
    ∀ l : List UnitSpec, extractReady placed l = none →
    ∀ u ∈ l, readyUnit placed u = false := by
  intro l
  induction l with
  | nil => intro h u hu; cases hu
  | cons a tail ih =>
    intro h u hu
    unfold extractReady at h
    by_cases hr : readyUnit placed a = true
    · rw [if_pos hr] at h
      cases h
    · rw [if_neg hr] at h
      rcases List.mem_cons.mp hu with rfl | hmem
      · cases hx : readyUnit placed u
        · rfl
        · exact absurd hx hr
      · cases he : extractReady placed tail with
        | some q => rw [he] at h; simp at h
        | none => exact ih he u hmem

theorem hasCycle_mono (rem units : List UnitSpec)
    (hsub : ∀ u ∈ rem, u ∈ units) :
    HasCycle rem → HasCycle units := by
  rintro ⟨a, h⟩
  refine ⟨a, Relation.TransGen.mono ?_ h⟩
  rintro x y ⟨u, hu, hid, hl⟩
  exact ⟨u, hsub u hu, hid, hl⟩

theorem cycle_of_no_ready (placed : List String) (rem : List UnitSpec)
    (hne : rem ≠ [])
    (hnr : ∀ u ∈ rem, readyUnit placed u = false)
    (hinv : ∀ u ∈ rem, ∀ l ∈ u.links,
      l ∈ placed ∨ ∃ v, v ∈ rem ∧ v.id = l) :
    HasCycle rem := by
  have hpred : ∀ u : {u // u ∈ rem}, ∃ v : {u // u ∈ rem},
      LinkRel rem v.1.id u.1.id := by
    rintro ⟨u, hu⟩
    have hbad : ∃ l ∈ u.links, memb l placed = false := by
      by_contra hc
      push_neg at hc
      have hready : readyUnit placed u = true := by
        unfold readyUnit
        rw [List.all_eq_true]
        intro l hl
        cases hm : memb l placed
        · exact absurd hm (hc l hl)
        · rfl
      rw [hnr u hu] at hready
      cases hready
    obtain ⟨l, hl, hlp⟩ := hbad
    have hlp' : l ∉ placed := by
      intro hmem
      rw [(memb_iff l placed).mpr hmem] at hlp
      cases hlp
    rcases hinv u hu l hl with hpl | ⟨v, hv, hvid⟩
    · exact absurd hpl hlp'
    · exact ⟨⟨v, hv⟩, u, hu, rfl, hvid ▸ hl⟩
  choose step hstep using hpred
  have hne' : ∃ u, u ∈ rem := by
    cases rem with
    | nil => exact absurd rfl hne
    | cons a tail => exact ⟨a, List.mem_cons_self a tail⟩
  obtain ⟨u0, hu0⟩ := hne'
  have hiter : ∀ k : Nat,
      LinkRel rem ((step^[k + 1] ⟨u0, hu0⟩).1.id) ((step^[k] ⟨u0, hu0⟩).1.id) := by
    intro k
    have hs : step^[k + 1] ⟨u0, hu0⟩ = step (step^[k] ⟨u0, hu0⟩) :=
      Function.iterate_succ_apply' step k ⟨u0, hu0⟩
    rw [hs]
    exact hstep (step^[k] ⟨u0, hu0⟩)
  have hchain : ∀ (k d : Nat), Relation.TransGen (LinkRel rem)
      ((step^[k + d + 1] ⟨u0, hu0⟩).1.id) ((step^[k] ⟨u0, hu0⟩).1.id) := by
    intro k d
    induction d with
    | zero => exact Relation.TransGen.single (hiter k)
    | succ d ihd =>
      have h1 := hiter (k + d + 1)
      have h2 : k + d + 1 + 1 = k + (d + 1) + 1 := by omega
      rw [h2] at h1
      exact Relation.TransGen.head h1 ihd
  have hmapsto : ∀ k : Fin (rem.length + 1), k ∈ (Finset.univ : Finset (Fin (rem.length + 1))) →
      ((step^[(k : Nat)] ⟨u0, hu0⟩).1.id) ∈ (rem.map (fun u => u.id)).toFinset := by
    intro k _
    rw [List.mem_toFinset]
    exact List.mem_map.mpr ⟨(step^[(k : Nat)] ⟨u0, hu0⟩).1,
      (step^[(k : Nat)] ⟨u0, hu0⟩).2, rfl⟩
  have hcard : (rem.map (fun u => u.id)).toFinset.card <
      (Finset.univ : Finset (Fin (rem.length + 1))).card := by
    have h1 : (rem.map (fun u => u.id)).toFinset.card ≤ rem.length := by
      have h2 := List.toFinset_card_le (rem.map (fun u => u.id))
      simpa using h2
    simp only [Finset.card_univ, Fintype.card_fin]
    omega
  obtain ⟨i, -, j, -, hij, hgij⟩ :=
    Finset.exists_ne_map_eq_of_card_lt_of_maps_to hcard hmapsto
  have hmain : ∀ (a b : Fin (rem.length + 1)), (a : Nat) < (b : Nat) →
      ((step^[(a : Nat)] ⟨u0, hu0⟩).1.id) = ((step^[(b : Nat)] ⟨u0, hu0⟩).1.id) →
      HasCycle rem := by
    intro a b hab heq
    have hd : (b : Nat) = (a : Nat) + ((b : Nat) - (a : Nat) - 1) + 1 := by omega
    have hc := hchain (a : Nat) ((b : Nat) - (a : Nat) - 1)
    rw [← hd] at hc
    rw [heq] at hc
    exact ⟨_, hc⟩
  rcases Nat.lt_or_ge (i : Nat) (j : Nat) with hlt | hge
  · exact hmain i j hlt hgij
  · have hlt' : (j : Nat) < (i : Nat) := by
      rcases Nat.eq_or_lt_of_le hge with heq | hlt'
      · exact absurd (Fin.ext heq.symm) hij
      · exact hlt'
    exact hmain j i hlt' hgij.symm

theorem kahnLoop_complete :
    ∀ (fuel : Nat) (units : List UnitSpec) (placed : List String)
      (rem : List UnitSpec),
    rem.length ≤ fuel →
    (∀ u ∈ rem, u ∈ units) →
    (∀ u ∈ rem, ∀ l ∈ u.links, l ∈ placed ∨ ∃ v, v ∈ rem ∧ v.id = l) →
    ¬ HasCycle units →
    ∃ order, kahnLoop fuel placed rem = some order := by
  intro fuel
  induction fuel with
  | zero =>
    intro units placed rem hlen hsub hinv hnc
    cases rem with
    | nil => exact ⟨[], rfl⟩
    | cons a tail => simp at hlen
  | succ n ih =>
    intro units placed rem hlen hsub hinv hnc
    cases rem with
    | nil => exact ⟨[], rfl⟩
    | cons a tail =>
      cases he : extractReady placed (a :: tail) with
      | none =>
        exfalso
        apply hnc
        apply hasCycle_mono (a :: tail) units hsub
        exact cycle_of_no_ready placed (a :: tail) (by simp)
          (extractReady_none placed (a :: tail) he) hinv
      | some p =>
        obtain ⟨v, vs⟩ := p
        have hperm := (extractReady_perm placed (a :: tail) v vs he).1
        have hlen' : vs.length ≤ n := by
          have h1 := hperm.length_eq
          simp only [List.length_cons] at h1 hlen
          omega
        have hsub' : ∀ u ∈ vs, u ∈ units := by
          intro u hu
          exact hsub u (hperm.mem_iff.mpr (List.mem_cons_of_mem v hu))
        have hinv' : ∀ u ∈ vs, ∀ l ∈ u.links,
            l ∈ v.id :: placed ∨ ∃ w, w ∈ vs ∧ w.id = l := by
          intro u hu l hl
          rcases hinv u (hperm.mem_iff.mpr (List.mem_cons_of_mem v hu)) l hl with
            hpl | ⟨x, hx, hxid⟩
          · exact Or.inl (List.mem_cons_of_mem _ hpl)
          · rcases List.mem_cons.mp (hperm.mem_iff.mp hx) with rfl | hx'
            · exact Or.inl (by rw [← hxid]; exact List.mem_cons_self _ _)
            · exact Or.inr ⟨x, hx', hxid⟩
        obtain ⟨order', ho⟩ := ih units (v.id :: placed) vs hlen' hsub' hinv' hnc
        refine ⟨v :: order', ?_⟩
        unfold kahnLoop
        simp only [he, ho, Option.map_some']

theorem topoSort_complete (units : List UnitSpec)
    (hnc : ¬ HasCycle units) (hnd : NoDangling units) :
    ∃ order, topoSort units = some order := by
  apply kahnLoop_complete units.length units [] units (Nat.le_refl _)
    (fun u hu => hu) ?_ hnc
  intro u hu l hl
  obtain ⟨v, hv, hvid⟩ := hnd u hu l hl
  exact Or.inr ⟨v, hv, hvid⟩

theorem extractEntries_all_files :
    ∀ (l : List Entry), (∀ e ∈ l, isSafeName e.name = true ∧ e.kind = .file) →
    ∀ s, extractEntries l s =
      .ok ((l.map (fun e => (e.name, e.data))).reverse ++ s) := by
  intro l
  induction l with
  | nil => intro hsafe s; simp [extractEntries]
  | cons e rest ih =>
    intro hsafe s
    have he := hsafe e (List.mem_cons_self e rest)
    have hw : writeEntry s e = .ok ((e.name, e.data) :: s) := by
      unfold writeEntry
      rw [if_pos (by rw [he.1])]
      rw [he.2]
    have hrest : ∀ e' ∈ rest, isSafeName e'.name = true ∧ e'.kind = .file :=
      fun e' h' => hsafe e' (List.mem_cons_of_mem e h')
    have hstep : extractEntries (e :: rest) s =
        extractEntries rest ((e.name, e.data) :: s) := by
      simp [extractEntries, hw]
    rw [hstep, ih hrest ((e.name, e.data) :: s)]
    simp

theorem lookupFile_append (xs ys : Scratch) (n : String) :
    lookupFile (xs ++ ys) n =
      match lookupFile xs n with
      | some d => some d
      | none => lookupFile ys n := by
  induction xs with
  | nil => simp [lookupFile]
  | cons p rest ih =>
    obtain ⟨m, d⟩ := p
    by_cases hp : m = n
    · simp [lookupFile, hp]
    · simp [lookupFile, hp, ih]

theorem lookupFile_none_of_not_mem :
    ∀ (xs : Scratch) (n : String), n ∉ xs.map Prod.fst →
    lookupFile xs n = none := by
  intro xs
  induction xs with
  | nil => intro n h; rfl
  | cons p rest ih =>
    intro n h
    obtain ⟨m, d⟩ := p
    simp only [List.map_cons, List.mem_cons] at h
    push_neg at h
    simp only [lookupFile]
    rw [if_neg (fun hc => h.1 hc.symm)]
    exact ih n h.2

theorem lookupFile_some_of_mem_nodup :
    ∀ (xs : Scratch) (n : String) (d : FileData),
    (xs.map Prod.fst).Nodup → (n, d) ∈ xs → lookupFile xs n = some d := by
  intro xs
  induction xs with
  | nil => intro n d hnd h; cases h
  | cons p rest ih =>
    intro n d hnd h
    obtain ⟨m, d'⟩ := p
    have hnd' := List.nodup_cons.mp hnd
    rcases List.mem_cons.mp h with heq | hmem
    · cases heq
      simp [lookupFile]
    · by_cases hmn : m = n
      · exfalso
        apply hnd'.1
        rw [hmn]
        exact List.mem_map.mpr ⟨(n, d), hmem, rfl⟩
      · simp only [lookupFile]
        rw [if_neg hmn]
        exact ih n d hnd'.2 hmem

theorem blobLookup_some_mem :
    ∀ (blobs : List (String × List Nat)) (n : String) (bs : List Nat),
    blobLookup blobs n = some bs → (n, bs) ∈ blobs := by
  intro blobs
  induction blobs with
  | nil => intro n bs h; cases h
  | cons p rest ih =>
    intro n bs h
    obtain ⟨m, cs⟩ := p
    simp only [blobLookup] at h
    by_cases hmn : m = n
    · rw [if_pos hmn] at h
      cases h
      rw [hmn]
      exact List.mem_cons_self _ _
    · rw [if_neg hmn] at h
      exact List.mem_cons_of_mem _ (ih n bs h)

theorem propRefs_mem :
    ∀ (props : List (String × PropertyValue)) (n : String) (r : BlobRef),
    (n, PropertyValue.blob r) ∈ props → r ∈ propRefs props := by
  intro props
  induction props with
  | nil => intro n r h; cases h
  | cons p tail ih =>
    intro n r h
    obtain ⟨m, v⟩ := p
    rcases List.mem_cons.mp h with heq | hmem
    · have hv : v = PropertyValue.blob r := (Prod.mk.injEq _ _ _ _ ▸ heq.symm).2
      rw [hv]
      exact List.mem_cons_self _ _
    · cases v with
      | scalar w => exact ih n r hmem
      | seq ws => exact ih n r hmem
      | blob r0 => exact List.mem_cons_of_mem _ (ih n r hmem)

theorem treeRefs_mem (t : DescriptorTree) (u : UnitSpec) (hu : u ∈ t.units)
    (n : String) (r : BlobRef)
    (hr : (n, PropertyValue.blob r) ∈ u.properties) :
    r ∈ treeRefs t := by
  unfold treeRefs
  rw [List.mem_flatten]
  exact ⟨propRefs u.properties, List.mem_map.mpr ⟨u, hu, rfl⟩,
    propRefs_mem u.properties n r hr⟩

theorem resolveRefs_cons_found (scratch : Scratch) (r0 : BlobRef)
    (rest : List BlobRef) (pool : List ArrayVal) (bs : List Nat) (i : Nat)
    (hs : hasSlash r0.path = false)
    (hsh : r0.shape.all (fun d => decide (0 < d)) = true)
    (hlk : lookupFile scratch r0.path = some (.blob bs))
    (hlen : bs.length = expectedBytes r0)
    (hi : indexOfPath pool r0.path = some i) :
    resolveRefs scratch (r0 :: rest) pool = resolveRefs scratch rest pool := by
  conv_lhs => unfold resolveRefs
  simp [hs, hsh, hlk, hlen, hi]

theorem resolveRefs_cons_new (scratch : Scratch) (r0 : BlobRef)
    (rest : List BlobRef) (pool : List ArrayVal) (bs : List Nat)
    (hs : hasSlash r0.path = false)
    (hsh : r0.shape.all (fun d => decide (0 < d)) = true)
    (hlk : lookupFile scratch r0.path = some (.blob bs))
    (hlen : bs.length = expectedBytes r0)
    (hi : indexOfPath pool r0.path = none) :
    resolveRefs scratch (r0 :: rest) pool =
      resolveRefs scratch rest
        (pool ++ [⟨r0.path, r0.element_type, r0.shape, bs⟩]) := by
  conv_lhs => unfold resolveRefs
  simp [hs, hsh, hlk, hlen, hi]

theorem resolveRefs_complete (scratch : Scratch) :
    ∀ (refs : List BlobRef) (pool : List ArrayVal),
    (∀ r ∈ refs, hasSlash r.path = false ∧
      r.shape.all (fun d => decide (0 < d)) = true ∧
      ∃ bs, lookupFile scratch r.path = some (.blob bs) ∧
        bs.length = expectedBytes r) →
    ∃ pool', resolveRefs scratch refs pool = .ok pool' := by
  intro refs
  induction refs with
  | nil => intro pool h; exact ⟨pool, rfl⟩
  | cons r0 rest ih =>
    intro pool h
    obtain ⟨hs, hsh, bs, hlk, hlen⟩ := h r0 (List.mem_cons_self r0 rest)
    have hrest := fun r hr => h r (List.mem_cons_of_mem r0 hr)
    cases hi : indexOfPath pool r0.path with
    | some i =>
      obtain ⟨pool', hp⟩ := ih pool hrest
      rw [resolveRefs_cons_found scratch r0 rest pool bs i hs hsh hlk hlen hi]
      exact ⟨pool', hp⟩
    | none =>
      obtain ⟨pool', hp⟩ := ih (pool ++ [⟨r0.path, r0.element_type, r0.shape, bs⟩]) hrest
      rw [resolveRefs_cons_new scratch r0 rest pool bs hs hsh hlk hlen hi]
      exact ⟨pool', hp⟩

theorem linkProps_names (pool : List ArrayVal) :
    ∀ (props : List (String × PropertyValue))
      (rprops : List (String × ResolvedValue)),
    linkProps pool props = .ok rprops →
    rprops.map Prod.fst = props.map Prod.fst := by
  intro props
  induction props with
  | nil => intro rprops h; cases h; rfl
  | cons p tail ih =>
    intro rprops h
    unfold linkProps at h
    split at h
    · cases h
    · rename_i rv hrv
      split at h
      · cases h
      · rename_i rvs hrvs
        cases h
        simp [ih rvs hrvs]

theorem linkProps_mem_scalar (pool : List ArrayVal) :
    ∀ (props : List (String × PropertyValue))
      (rprops : List (String × ResolvedValue)),
    linkProps pool props = .ok rprops →
    ∀ n v, (n, PropertyValue.scalar v) ∈ props →
    (n, ResolvedValue.scalar v) ∈ rprops := by
  intro props
  induction props with
  | nil => intro rprops h n v hn; cases hn
  | cons p tail ih =>
    intro rprops h n v hn
    unfold linkProps at h
    split at h
    · cases h
    · rename_i rv hrv
      split at h
      · cases h
      · rename_i rvs hrvs
        cases h
        rcases List.mem_cons.mp hn with heq | hmem
        · have hp2 : p.2 = PropertyValue.scalar v := by rw [← heq]
          rw [hp2] at hrv
          simp only [linkValue] at hrv
          cases hrv
          have hp1 : p.1 = n := by rw [← heq]
          rw [← hp1]
          exact List.mem_cons_self _ _
        · exact List.mem_cons_of_mem _ (ih rvs hrvs n v hmem)

theorem linkProps_mem_seq (pool : List ArrayVal) :
    ∀ (props : List (String × PropertyValue))
      (rprops : List (String × ResolvedValue)),
    linkProps pool props = .ok rprops →
    ∀ n vs, (n, PropertyValue.seq vs) ∈ props →
    (n, ResolvedValue.seq vs) ∈ rprops := by
  intro props
  induction props with
  | nil => intro rprops h n vs hn; cases hn
  | cons p tail ih =>
    intro rprops h n vs hn
    unfold linkProps at h
    split at h
    · cases h
    · rename_i rv hrv
      split at h
      · cases h
      · rename_i rvs hrvs
        cases h
        rcases List.mem_cons.mp hn with heq | hmem
        · have hp2 : p.2 = PropertyValue.seq vs := by rw [← heq]
          rw [hp2] at hrv
          simp only [linkValue] at hrv
          cases hrv
          have hp1 : p.1 = n := by rw [← heq]
          rw [← hp1]
          exact List.mem_cons_self _ _
        · exact List.mem_cons_of_mem _ (ih rvs hrvs n vs hmem)

theorem linkProps_complete (pool : List ArrayVal) :
    ∀ props : List (String × PropertyValue),
    (∀ n r, (n, PropertyValue.blob r) ∈ props →
      ∃ i, indexOfPath pool r.path = some i) →
    ∃ rprops, linkProps pool props = .ok rprops := by
  intro props
  induction props with
  | nil => intro h; exact ⟨[], rfl⟩
  | cons p tail ih =>
    intro h
    obtain ⟨rvs, hrvs⟩ := ih (fun n r hr => h n r (List.mem_cons_of_mem p hr))
    obtain ⟨m, v⟩ := p
    cases v with
    | scalar w => exact ⟨(m, .scalar w) :: rvs, by simp [linkProps, linkValue, hrvs]⟩
    | seq ws => exact ⟨(m, .seq ws) :: rvs, by simp [linkProps, linkValue, hrvs]⟩
    | blob r =>
      obtain ⟨i, hi⟩ := h m r (List.mem_cons_self _ _)
      exact ⟨(m, .array i) :: rvs, by simp [linkProps, linkValue, hi, hrvs]⟩

theorem constructUnit_complete (reg : Registry) (pool : List ArrayVal)
    (u : UnitSpec) (c : UnitCtor)
    (hreg : reg u.type_name = some c)
    (hacc : ∀ p ∈ u.properties, c.accepts p.1 = true)
    (har : u.links.length = c.inputArity)
    (hprops : ∃ rprops, linkProps pool u.properties = .ok rprops) :
    ∃ cu, constructUnit reg pool u = .ok cu := by
  obtain ⟨rprops, hlp⟩ := hprops
  refine ⟨⟨u.id, u.type_name, rprops, u.links⟩, ?_⟩
  unfold constructUnit
  simp only [hreg]
  rw [if_pos (by rw [List.all_eq_true]; exact hacc)]
  rw [if_pos har]
  rw [hlp]

theorem constructUnits_complete (reg : Registry) (pool : List ArrayVal) :
    ∀ l : List UnitSpec,
    (∀ u ∈ l, ∃ cu, constructUnit reg pool u = .ok cu) →
    ∃ cus, constructUnits reg pool l = .ok cus := by
  intro l
  induction l with
  | nil => intro h; exact ⟨[], rfl⟩
  | cons a tail ih =>
    intro h
    obtain ⟨cu, hcu⟩ := h a (List.mem_cons_self a tail)
    obtain ⟨cus, hcs⟩ := ih (fun u hu => h u (List.mem_cons_of_mem a hu))
    exact ⟨cu :: cus, by simp [constructUnits, hcu, hcs]⟩

theorem constructUnits_idTypeLinks (reg : Registry) (pool : List ArrayVal) :
    ∀ (l : List UnitSpec) (cus : List WorkflowUnit),
    constructUnits reg pool l = .ok cus →
    cus.map (fun c => (c.id, c.type_name, c.links)) =
      l.map (fun u => (u.id, u.type_name, u.links)) := by
  intro l
  induction l with
  | nil => intro cus h; cases h; rfl
  | cons a tail ih =>
    intro cus h
    unfold constructUnits at h
    split at h
    · cases h
    · rename_i cu0 hc0
      split at h
      · cases h
      · rename_i cus0 hcs
        cases h
        obtain ⟨hid, htn, hlinks, -⟩ := constructUnit_ok_fields reg pool a cu0 hc0
        simp [hid, htn, hlinks, ih cus0 hcs]

theorem synth_extract (p : String) (tree : DescriptorTree)
    (blobs : List (String × List Nat))
    (hsafe : ∀ b ∈ blobs, isSafeName b.1 = true) :
    extractEntries (synthesize p tree blobs).entries [] =
      .ok (synthScratch tree blobs) := by
  have hsafeAll : ∀ e ∈ (synthesize p tree blobs).entries,
      isSafeName e.name = true ∧ e.kind = .file := by
    intro e he
    have he' : e ∈ (⟨kMainFile, EntryKind.file, FileData.descriptor tree⟩ : Entry) ::
        blobs.map blobEntry := he
    rcases List.mem_cons.mp he' with rfl | hmem
    · exact ⟨(by decide : isSafeName kMainFile = true), rfl⟩
    · obtain ⟨b, hb, rfl⟩ := List.mem_map.mp hmem
      exact ⟨hsafe b hb, rfl⟩
  rw [extractEntries_all_files (synthesize p tree blobs).entries hsafeAll []]
  unfold synthesize synthScratch blobEntry
  simp [List.map_map, Function.comp]

theorem synthScratch_lookup_main (tree : DescriptorTree)
    (blobs : List (String × List Nat))
    (hnm : ∀ b ∈ blobs, b.1 ≠ kMainFile) :
    lookupFile (synthScratch tree blobs) kMainFile =
      some (.descriptor tree) := by
  unfold synthScratch
  rw [lookupFile_append]
  rw [lookupFile_none_of_not_mem]
  · simp [lookupFile]
  · intro hmem
    rw [List.map_reverse, List.mem_reverse, List.map_map] at hmem
    obtain ⟨b, hb, hbe⟩ := List.mem_map.mp hmem
    exact hnm b hb (by simpa using hbe)

theorem synthScratch_lookup_blob (tree : DescriptorTree)
    (blobs : List (String × List Nat))
    (hnd : (blobs.map Prod.fst).Nodup) (n : String) (bs : List Nat)
    (hlk : blobLookup blobs n = some bs) :
    lookupFile (synthScratch tree blobs) n = some (.blob bs) := by
  unfold synthScratch
  rw [lookupFile_append]
  have hmem : (n, FileData.blob bs) ∈
      (blobs.map (fun b => (b.1, FileData.blob b.2))).reverse := by
    rw [List.mem_reverse]
    exact List.mem_map.mpr ⟨(n, bs), blobLookup_some_mem blobs n bs hlk, rfl⟩
  have hndrev : (((blobs.map (fun b => (b.1, FileData.blob b.2))).reverse).map
      Prod.fst).Nodup := by
    rw [List.map_reverse, List.nodup_reverse, List.map_map]
    simpa [Function.comp] using hnd
  rw [lookupFile_some_of_mem_nodup _ n (FileData.blob bs) hndrev hmem]

theorem synthScratch_parse (tree : DescriptorTree)
    (blobs : List (String × List Nat))
    (hnm : ∀ b ∈ blobs, b.1 ≠ kMainFile)
    (hids : hasDupIds tree.units = false) :
    parseDescriptor (synthScratch tree blobs) = .ok tree := by
  unfold parseDescriptor
  rw [synthScratch_lookup_main tree blobs hnm]
  simp [hids]

/-- C8: for every package synthesized from a known well-formed
`DescriptorTree` and blob set, `Load` succeeds and the returned
`Workflow` reproduces the same unit identifiers, type names, links, and
properties, with every blob reference resolved to an array whose dtype,
shape and bytes are bit-for-bit those of the packaged blob (load is a
right inverse of packaging). -/
theorem c8_round_trip (p : String) (tree : DescriptorTree)
    (blobs : List (String × List Nat)) (reg : Registry) (disk : Disk)
    (hblobsafe : ∀ b ∈ blobs, isSafeName b.1 = true)
    (hblobnotmain : ∀ b ∈ blobs, b.1 ≠ kMainFile)
    (hblobnd : (blobs.map Prod.fst).Nodup)
    (hids : hasDupIds tree.units = false)
    (hrefs : ∀ r ∈ treeRefs tree, hasSlash r.path = false ∧
      r.shape.all (fun d => decide (0 < d)) = true ∧
      ∃ bs, blobLookup blobs r.path = some bs ∧ bs.length = expectedBytes r)
    (hagree : ∀ r1 ∈ treeRefs tree, ∀ r2 ∈ treeRefs tree,
      r1.path = r2.path → r1 = r2)
    (hnc : ¬ HasCycle tree.units)
    (hnd : NoDangling tree.units)
    (hreg : ∀ u ∈ tree.units, ∃ c, reg u.type_name = some c ∧
      (∀ q ∈ u.properties, c.accepts q.1 = true) ∧
      u.links.length = c.inputArity) :
    ∃ w, (Load (synthesize p tree blobs) reg disk).1 = .ok w ∧
      (w.units.map (fun c => (c.id, c.type_name, c.links))).Perm
        (tree.units.map (fun u => (u.id, u.type_name, u.links))) ∧
      ∀ u ∈ tree.units, ∃ cu, cu ∈ w.units ∧
        cu.id = u.id ∧ cu.type_name = u.type_name ∧ cu.links = u.links ∧
        cu.properties.map Prod.fst = u.properties.map Prod.fst ∧
        (∀ n v, (n, PropertyValue.scalar v) ∈ u.properties →
          (n, ResolvedValue.scalar v) ∈ cu.properties) ∧
        (∀ n vs, (n, PropertyValue.seq vs) ∈ u.properties →
          (n, ResolvedValue.seq vs) ∈ cu.properties) ∧
        (∀ n r, (n, PropertyValue.blob r) ∈ u.properties →
          ∃ i, (n, ResolvedValue.array i) ∈ cu.properties ∧
            ∃ hi : i < w.arrays.length,
              (w.arrays.get ⟨i, hi⟩).dtype = r.element_type ∧
              (w.arrays.get ⟨i, hi⟩).shape = r.shape ∧
              blobLookup blobs r.path =
                some (w.arrays.get ⟨i, hi⟩).bytes) := by
  have hextract := synth_extract p tree blobs hblobsafe
  have hparse := synthScratch_parse tree blobs hblobnotmain hids
  obtain ⟨pool, hpool⟩ :=
    resolveRefs_complete (synthScratch tree blobs) (treeRefs tree) []
      (by
        intro r hr
        obtain ⟨hs, hsh, bs, hbl, hblen⟩ := hrefs r hr
        exact ⟨hs, hsh, bs,
          synthScratch_lookup_blob tree blobs hblobnd r.path bs hbl, hblen⟩)
  obtain ⟨order, horder⟩ := topoSort_complete tree.units hnc hnd
  have hcover := resolveRefs_ok_covers _ (treeRefs tree) [] pool hpool
  have hperm := topoSort_perm tree.units order horder
  have hconsAll : ∀ u ∈ order, ∃ cu, constructUnit reg pool u = .ok cu := by
    intro u hu
    have hu' : u ∈ tree.units := hperm.mem_iff.mpr hu
    obtain ⟨c, hc, hacc, har⟩ := hreg u hu'
    apply constructUnit_complete reg pool u c hc hacc har
    apply linkProps_complete
    intro n r hnr
    exact hcover r (treeRefs_mem tree u hu' n r hnr)
  obtain ⟨cus, hcus⟩ := constructUnits_complete reg pool order hconsAll
  have hres : resolveAll (synthScratch tree blobs) tree = .ok pool := hpool
  refine ⟨⟨cus, pool⟩, ?_, ?_, ?_⟩
  · have hlink : linkAll reg pool tree = .ok ⟨cus, pool⟩ := by
      unfold linkAll
      rw [horder]
      simp only [hcus]
    have hrun : runLoad (synthesize p tree blobs) reg = .ok ⟨cus, pool⟩ := by
      unfold runLoad
      simp only [hextract, hparse, hres, hlink]
    simp [Load, hrun]
  · have hmap := constructUnits_idTypeLinks reg pool order cus hcus
    have hgoal : (cus.map (fun c => (c.id, c.type_name, c.links))).Perm
        (tree.units.map (fun u => (u.id, u.type_name, u.links))) := by
      rw [hmap]
      exact (hperm.map _).symm
    exact hgoal
  · intro u hu
    have hu' : u ∈ order := hperm.mem_iff.mp hu
    obtain ⟨cu, hcumem, hcuok⟩ := constructUnits_mem reg pool order cus hcus u hu'
    obtain ⟨hid, htn, hlinks, hlp⟩ := constructUnit_ok_fields reg pool u cu hcuok
    refine ⟨cu, hcumem, hid, htn, hlinks,
      linkProps_names pool u.properties cu.properties hlp,
      (fun n v hm => linkProps_mem_scalar pool _ _ hlp n v hm),
      (fun n vs hm => linkProps_mem_seq pool _ _ hlp n vs hm), ?_⟩
    intro n r hnr
    obtain ⟨i, hi, hmem⟩ :=
      linkProps_mem_blob pool u.properties cu.properties hlp n r hnr
    obtain ⟨hlt, hgetp⟩ := indexOfPath_some_get pool r.path i hi
    have hainpool : pool.get ⟨i, hlt⟩ ∈ pool := List.get_mem pool i hlt
    rcases resolveRefs_ok_mem (synthScratch tree blobs) (treeRefs tree) []
        pool hpool _ hainpool with hnil | ⟨r0, bs0, hr0, hlk0, hlen0, ha0⟩
    · cases hnil
    · have hr0path : r0.path = r.path := by
        rw [← hgetp, ha0]
      have hrr : r0 = r := hagree r0 hr0 r (treeRefs_mem tree u hu n r hnr) hr0path
      obtain ⟨-, -, bs, hbl, hblen⟩ := hrefs r (treeRefs_mem tree u hu n r hnr)
      have hlkr : lookupFile (synthScratch tree blobs) r.path =
          some (.blob bs) :=
        synthScratch_lookup_blob tree blobs hblobnd r.path bs hbl
      have hbs : bs0 = bs := by
        rw [hrr] at hlk0
        rw [hlk0] at hlkr
        exact FileData.blob.inj (Option.some.inj hlkr)
      refine ⟨i, hmem, hlt, ?_, ?_, ?_⟩
      · rw [ha0, hrr]
      · rw [ha0, hrr]
      · rw [ha0]
        rw [hbs] at ha0 ⊢
        exact hbl

/-- Witness for C8: the synthesized two-unit package round-trips. -/
theorem c8_round_trip_witness :
    ∃ w, (Load (synthesize "pkg.tar" exampleTree exampleBlobs)
        exampleReg ⟨[], none⟩).1 = .ok w ∧
      (w.units.map (fun c => (c.id, c.type_name, c.links))).Perm
        (exampleTree.units.map (fun u => (u.id, u.type_name, u.links))) ∧
      ∀ u ∈ exampleTree.units, ∃ cu, cu ∈ w.units ∧
        cu.id = u.id ∧ cu.type_name = u.type_name ∧ cu.links = u.links ∧
        cu.properties.map Prod.fst = u.properties.map Prod.fst ∧
        (∀ n v, (n, PropertyValue.scalar v) ∈ u.properties →
          (n, ResolvedValue.scalar v) ∈ cu.properties) ∧
        (∀ n vs, (n, PropertyValue.seq vs) ∈ u.properties →
          (n, ResolvedValue.seq vs) ∈ cu.properties) ∧
        (∀ n r, (n, PropertyValue.blob r) ∈ u.properties →
          ∃ i, (n, ResolvedValue.array i) ∈ cu.properties ∧
            ∃ hi : i < w.arrays.length,
              (w.arrays.get ⟨i, hi⟩).dtype = r.element_type ∧
              (w.arrays.get ⟨i, hi⟩).shape = r.shape ∧
              blobLookup exampleBlobs r.path =
                some (w.arrays.get ⟨i, hi⟩).bytes) :=
  c8_round_trip "pkg.tar" exampleTree exampleBlobs exampleReg ⟨[], none⟩
    (by decide) (by decide) (by decide) (by decide)
    (by
      intro r hr
      have hr' : r ∈ [(⟨"w.bin", ElementType.f32, [2, 2]⟩ : BlobRef)] := hr
      rw [List.mem_singleton] at hr'
      subst hr'
      exact ⟨rfl, rfl, List.replicate 16 0, rfl, by decide⟩)
    (by decide)
    (topoSort_no_cycle exampleTree.units
      [⟨"a", "src", [("data", .blob ⟨"w.bin", .f32, [2, 2]⟩),
          ("msg", .scalar (.str "hi"))], []⟩,
       ⟨"b", "sink", [], ["a"]⟩]
      (nodup_of_hasDupIds_eq_false exampleTree.units (by decide)) rfl)
    (by
      intro u hu l hl
      have hu' : u ∈ [(⟨"a", "src", [("data", .blob ⟨"w.bin", .f32, [2, 2]⟩),
          ("msg", .scalar (.str "hi"))], []⟩ : UnitSpec),
        ⟨"b", "sink", [], ["a"]⟩] := hu
      rcases List.mem_cons.mp hu' with rfl | hmem
      · cases hl
      · rcases List.mem_cons.mp hmem with rfl | h0
        · have hl' : l ∈ ["a"] := hl
          rw [List.mem_singleton] at hl'
          subst hl'
          exact ⟨⟨"a", "src", [("data", .blob ⟨"w.bin", .f32, [2, 2]⟩),
            ("msg", .scalar (.str "hi"))], []⟩, List.mem_cons_self _ _, rfl⟩
        · cases h0)
    (by
      intro u hu
      have hu' : u ∈ [(⟨"a", "src", [("data", .blob ⟨"w.bin", .f32, [2, 2]⟩),
          ("msg", .scalar (.str "hi"))], []⟩ : UnitSpec),
        ⟨"b", "sink", [], ["a"]⟩] := hu
      rcases List.mem_cons.mp hu' with rfl | hmem
      · exact ⟨⟨fun _ => true, 0⟩, rfl, fun q hq => rfl, rfl⟩
      · rcases List.mem_cons.mp hmem with rfl | h0
        · exact ⟨⟨fun _ => true, 1⟩, rfl, fun q hq => rfl, rfl⟩
        · cases h0)

end Veles
